import Mathlib

/-!
# Verification of the simple-transfer state-transition core

A shallow embedding of the trie / account / state-transition core exercised
by the repository's two integration tests (src/simple-transfer.rs and
src/sample.rs).  The Merkle-Patricia trie, nibble-path and account-encoding
operations live in external crates (eth_trie_utils, rlp, ethereum_types,
plonky2_evm); they are modelled here from the specification, while every
value appearing in the tests themselves (account contents, gas arithmetic,
the manual two-leaf branch construction, eth_to_wei) is translated from the
source.
-/

namespace MPT

/-- A nibble is a 4-bit value, two per byte. -/
abbrev Nibble := Fin 16

/-- Byte strings are modelled as lists of naturals (each intended < 256). -/
abbrev Bytes := List Nat

/-- Modelled from the spec (section 7): the error kinds of the core. -/
inductive TrieError where
  | MalformedKey
  | OutOfRange
  | InsufficientBalance
  | ProvingFailed
  | VerificationFailed
deriving DecidableEq, Repr

/-- Modelled from the spec (section 4.1): fetch the i-th nibble of a path;
fails with OutOfRange when the index is not below the length.  This models
eth_trie_utils' get_nibble, which is not part of this repository. -/
def get_nibble (p : List Nibble) (i : Nat) : Except TrieError Nibble :=
  if i < p.length then .ok (p.getD i 0) else .error .OutOfRange

/-- Modelled from the spec (section 4.1): remove the first n nibbles of a
path; fails with OutOfRange when n exceeds the length.  This models
eth_trie_utils' truncate_n_nibbles_front, which is not part of this
repository. -/
def truncate_n_nibbles_front (p : List Nibble) (n : Nat) :
    Except TrieError (List Nibble) :=
  if n ≤ p.length then .ok (p.drop n) else .error .OutOfRange

/-- Modelled from the spec (section 3): the tagged trie-node variant
{Empty, Leaf, Extension, Branch}; a Branch owns 16 child slots (kept as a
list of length 16 by construction) and an optional value, the empty byte
string standing for the absent value, as in the reference crate. -/
inductive Trie where
  | empty : Trie
  | leaf (nibbles : List Nibble) (value : Bytes) : Trie
  | ext (nibbles : List Nibble) (child : Trie) : Trie
  | branch (children : List Trie) (value : Bytes) : Trie
deriving Repr

/-- Injective encoding of a byte list into a natural number; stands for a
byte string fed to the commitment hash. -/
def encL : List Nat → Nat
  | [] => 0
  | b :: bs => Nat.pair b (encL bs) + 1

/-- Modelled from the spec (section 6): the fixed 256-bit cryptographic
hash used for all commitments (Keccak-256 in the reference domain),
idealised as an injective function — the only facts the development uses
are determinism and collision-freeness. -/
def H (bs : List Nat) : Nat := encL bs

/-- Code of a nibble path inside a node encoding. -/
def pathCode (p : List Nibble) : Nat := encL (p.map Fin.val)

/-- Canonical encoding of the empty node. -/
def emptyNodeEncoding : List Nat := [0]

mutual
/-- Modelled from the spec (section 4.3): the deterministic recursive root
commitment of a trie. -/
def trieHash : Trie → Nat
  | .empty => H emptyNodeEncoding
  | .leaf ns v => H [1, pathCode ns, H v]
  | .ext ns c => H [2, pathCode ns, trieHash c]
  | .branch cs bv => H (3 :: H bv :: childHashes cs)

/-- Hashes of a branch's child list, in order. -/
def childHashes : List Trie → List Nat
  | [] => []
  | c :: cs => trieHash c :: childHashes cs
end

/-- The fixed, well-known commitment of the canonical empty trie. -/
def emptyTrieCommitment : Nat := H emptyNodeEncoding

/-- The 16 empty child slots of a fresh branch node. -/
def emptyChildren : List Trie := List.replicate 16 .empty

/-- Length of the longest common prefix of two nibble paths. -/
def commonPrefixLen : List Nibble → List Nibble → Nat
  | a :: as, b :: bs => if a = b then commonPrefixLen as bs + 1 else 0
  | _, _ => 0

/-- Modelled from the spec (section 4.3): the branch node holding exactly
the two key remainders r1 and r2 (which, coming from a common-prefix
split, never share a first nibble) with their values. -/
def branchOfTwo : List Nibble → Bytes → List Nibble → Bytes → Trie
  | [], _, [], v2 => .leaf [] v2
  | [], v1, n2 :: r2, v2 => .branch (emptyChildren.set n2.val (.leaf r2 v2)) v1
  | n1 :: r1, v1, [], v2 => .branch (emptyChildren.set n1.val (.leaf r1 v1)) v2
  | n1 :: r1, v1, n2 :: r2, v2 =>
      .branch ((emptyChildren.set n1.val (.leaf r1 v1)).set n2.val (.leaf r2 v2)) []

/-- Modelled from the spec (section 4.3): split a leaf whose key kn differs
from the inserted key k, creating a branch at the divergence nibble,
wrapped in an extension node when the shared prefix is non-empty. -/
def splitLeaf (kn : List Nibble) (kv : Bytes) (k : List Nibble) (v : Bytes) : Trie :=
  let p := commonPrefixLen kn k
  let core := branchOfTwo (kn.drop p) kv (k.drop p) v
  if p = 0 then core else .ext (k.take p) core

/-- The subtree standing behind an extension remainder: the child itself
when the remainder is empty, otherwise a shorter extension node. -/
def extTail : List Nibble → Trie → Trie
  | [], c => c
  | e :: es, c => .ext (e :: es) c

/-- Modelled from the spec (section 4.3): the child slots obtained when an
extension node with path en is split after p matched nibbles: the slot at
the first unmatched extension nibble keeps the original child, behind a
shorter extension when more than one extension nibble remains. -/
def extChildren (en : List Nibble) (c : Trie) (p : Nat) : List Trie :=
  match en.drop p with
  | [] => emptyChildren
  | e0 :: erest => emptyChildren.set e0.val (extTail erest c)

/-- Modelled from the spec (section 4.3): the branch created when an
extension node with path en is split by an inserted key k that diverges
from the extension path; the inserted value lands either in the branch
value slot (key exhausted) or in a fresh leaf child. -/
def extSplitCore (en : List Nibble) (c : Trie) (k : List Nibble) (v : Bytes) : Trie :=
  match k.drop (commonPrefixLen en k) with
  | [] => .branch (extChildren en c (commonPrefixLen en k)) v
  | n :: krest =>
      .branch ((extChildren en c (commonPrefixLen en k)).set n.val (.leaf krest v)) []

mutual
/-- Modelled from the spec (section 4.3): general recursive trie insertion.
Returns a new trie with key -> value set; only nodes along the insertion
path are rebuilt.  Variable-length keys are accepted at the API level, as
the contract requires. -/
def insert : Trie → List Nibble → Bytes → Trie
  | .empty, k, v => .leaf k v
  | .leaf kn kv, k, v => if kn = k then .leaf k v else splitLeaf kn kv k v
  | .ext en c, k, v =>
      if commonPrefixLen en k = en.length then
        .ext en (insert c (k.drop (commonPrefixLen en k)) v)
      else if commonPrefixLen en k = 0 then extSplitCore en c k v
      else .ext (k.take (commonPrefixLen en k)) (extSplitCore en c k v)
  | .branch cs _, [], v => .branch cs v
  | .branch cs bv, n :: ks, v => .branch (insertChild cs n.val ks v) bv

/-- Insertion into the i-th child slot of a branch's child list. -/
def insertChild : List Trie → Nat → List Nibble → Bytes → List Trie
  | [], _, _, _ => []
  | c :: cs, 0, ks, v => insert c ks v :: cs
  | c :: cs, n + 1, ks, v => c :: insertChild cs n ks v
end

mutual
/-- Point lookup in a trie; the empty byte string in a branch's value slot
stands for the absent value. -/
def lookup : Trie → List Nibble → Option Bytes
  | .empty, _ => none
  | .leaf kn kv, k => if kn = k then some kv else none
  | .ext en c, k =>
      if en = k.take en.length then lookup c (k.drop en.length) else none
  | .branch _ bv, [] => if bv = [] then none else some bv
  | .branch cs _, n :: ks => lookupChild cs n.val ks

/-- Lookup through the i-th child slot of a branch's child list. -/
def lookupChild : List Trie → Nat → List Nibble → Option Bytes
  | [], _, _ => none
  | c :: _, 0, ks => lookup c ks
  | _ :: cs, n + 1, ks => lookupChild cs n ks
end

/-- Is the node the empty node? -/
def Trie.isEmptyNode : Trie → Bool
  | .empty => true
  | _ => false

/-- Is the node a branch node? -/
def Trie.isBranchNode : Trie → Bool
  | .branch _ _ => true
  | _ => false

/-- Number of occupied slots of a branch: non-empty children plus one for a
present value. -/
def occupancy (cs : List Trie) (bv : Bytes) : Nat :=
  cs.countP (fun c => !c.isEmptyNode) + (if bv = [] then 0 else 1)

mutual
/-- The canonical-form invariant of tries built through the API: leaf
values are non-empty byte strings (they are canonical encodings), an
extension has a non-empty path and a branch child, and a branch owns
exactly 16 child slots with at least two occupied positions. -/
def canon : Trie → Bool
  | .empty => true
  | .leaf _ v => decide (v ≠ [])
  | .ext en c => decide (en ≠ []) && c.isBranchNode && canon c
  | .branch cs bv =>
      decide (cs.length = 16) && decide (2 ≤ occupancy cs bv) && canonList cs

/-- The canonical-form invariant, over a child list. -/
def canonList : List Trie → Bool
  | [] => true
  | c :: cs => canon c && canonList cs
end

/-! ## List helpers -/

theorem getD_set_self {α : Type} (l : List α) (i : Nat) (x d : α)
    (h : i < l.length) : (l.set i x).getD i d = x := by
  induction l generalizing i with
  | nil => simp at h
  | cons a as ih =>
    cases i with
    | zero => rfl
    | succ j => simpa using ih j (by simpa using h)

theorem getD_set_ne {α : Type} (l : List α) (i j : Nat) (x d : α)
    (h : i ≠ j) : (l.set i x).getD j d = l.getD j d := by
  induction l generalizing i j with
  | nil => simp
  | cons a as ih =>
    cases i with
    | zero => cases j with
      | zero => exact absurd rfl h
      | succ j => rfl
    | succ i => cases j with
      | zero => rfl
      | succ j => simpa using ih i j (by omega)

theorem getD_replicate_lt {α : Type} (n i : Nat) (x d : α) (h : i < n) :
    (List.replicate n x).getD i d = x := by
  induction n generalizing i with
  | zero => omega
  | succ m ih =>
    cases i with
    | zero => rfl
    | succ j => simpa [List.replicate] using ih j (by omega)

theorem list_eq_of_getD {α : Type} (l1 l2 : List α) (d : α)
    (hlen : l1.length = l2.length) (h : ∀ i, l1.getD i d = l2.getD i d) :
    l1 = l2 := by
  induction l1 generalizing l2 with
  | nil => cases l2 with
    | nil => rfl
    | cons b bs => simp at hlen
  | cons a as ih =>
    cases l2 with
    | nil => simp at hlen
    | cons b bs =>
      have h0 := h 0
      simp [List.getD] at h0
      subst h0
      have := ih bs (by simpa using hlen) (fun i => by simpa using h (i + 1))
      rw [this]

theorem take_append_self {α : Type} (a b : List α) : (a ++ b).take a.length = a := by
  induction a with
  | nil => rfl
  | cons x xs ih => simp [ih]

theorem drop_append_self {α : Type} (a b : List α) : (a ++ b).drop a.length = b := by
  induction a with
  | nil => rfl
  | cons x xs ih => simp [ih]

theorem take_ne_nil_of_pos {α : Type} (a : List α) (p : Nat)
    (hp : 0 < p) (hlen : p ≤ a.length) : a.take p ≠ [] := by
  cases a with
  | nil => simp at hlen; omega
  | cons x xs =>
    cases p with
    | zero => omega
    | succ q => simp

/-! ## Common-prefix lemmas -/

theorem commonPrefixLen_comm (a b : List Nibble) :
    commonPrefixLen a b = commonPrefixLen b a := by
  induction a generalizing b with
  | nil => cases b <;> rfl
  | cons x xs ih =>
    cases b with
    | nil => rfl
    | cons y ys =>
      by_cases h : x = y
      · subst h
        simp [commonPrefixLen, ih]
      · simp only [commonPrefixLen, if_neg h, if_neg (fun hy : y = x => h hy.symm)]

theorem commonPrefixLen_le_left (a b : List Nibble) :
    commonPrefixLen a b ≤ a.length := by
  induction a generalizing b with
  | nil => cases b <;> simp [commonPrefixLen]
  | cons x xs ih =>
    cases b with
    | nil => simp [commonPrefixLen]
    | cons y ys =>
      by_cases h : x = y
      · subst h
        simp only [commonPrefixLen, if_pos rfl, List.length_cons]
        exact Nat.succ_le_succ (ih ys)
      · simp [commonPrefixLen, h]

theorem commonPrefixLen_le_right (a b : List Nibble) :
    commonPrefixLen a b ≤ b.length := by
  rw [commonPrefixLen_comm]
  exact commonPrefixLen_le_left b a

theorem take_commonPrefixLen (a b : List Nibble) :
    a.take (commonPrefixLen a b) = b.take (commonPrefixLen a b) := by
  induction a generalizing b with
  | nil => cases b <;> simp [commonPrefixLen]
  | cons x xs ih =>
    cases b with
    | nil => simp [commonPrefixLen]
    | cons y ys =>
      by_cases h : x = y
      · subst h
        simp [commonPrefixLen, ih ys]
      · simp [commonPrefixLen, h]

theorem commonPrefixLen_heads (a b : List Nibble) (x y : Nibble)
    (xs ys : List Nibble)
    (ha : a.drop (commonPrefixLen a b) = x :: xs)
    (hb : b.drop (commonPrefixLen a b) = y :: ys) : x ≠ y := by
  induction a generalizing b with
  | nil =>
    cases b <;> simp [commonPrefixLen] at ha
  | cons u us ih =>
    cases b with
    | nil => simp [commonPrefixLen] at hb
    | cons v vs =>
      by_cases h : u = v
      · subst h
        simp [commonPrefixLen] at ha hb
        exact ih vs ha hb
      · simp [commonPrefixLen, h] at ha hb
        rw [← ha.1, ← hb.1]
        exact h

theorem eq_iff_take_drop (a b : List Nibble) (p : Nat) :
    a = b ↔ (a.take p = b.take p ∧ a.drop p = b.drop p) := by
  constructor
  · rintro rfl
    exact ⟨rfl, rfl⟩
  · rintro ⟨h1, h2⟩
    rw [← List.take_append_drop p a, ← List.take_append_drop p b, h1, h2]

theorem eq_of_drops_nil (a b : List Nibble)
    (ha : a.drop (commonPrefixLen a b) = [])
    (hb : b.drop (commonPrefixLen a b) = []) : a = b := by
  rw [eq_iff_take_drop a b (commonPrefixLen a b)]
  exact ⟨take_commonPrefixLen a b, ha.trans hb.symm⟩

/-! ## Structural induction for tries with member-wise branch hypotheses -/

theorem trie_ind {motive : Trie → Prop}
    (hempty : motive .empty)
    (hleaf : ∀ ns v, motive (.leaf ns v))
    (hext : ∀ ns c, motive c → motive (.ext ns c))
    (hbranch : ∀ cs bv, (∀ c ∈ cs, motive c) → motive (.branch cs bv)) :
    ∀ t, motive t := fun t =>
  match t with
  | .empty => hempty
  | .leaf ns v => hleaf ns v
  | .ext ns c => hext ns c (trie_ind hempty hleaf hext hbranch c)
  | .branch cs bv =>
      hbranch cs bv (fun c _hc => trie_ind hempty hleaf hext hbranch c)
termination_by t => sizeOf t
decreasing_by
  all_goals simp
  all_goals first
    | omega
    | (have hlt := List.sizeOf_lt_of_mem _hc
       omega)

/-! ## Unfolding and bridge lemmas for the mutual definitions -/

theorem lookup_leaf (kn : List Nibble) (kv : Bytes) (k : List Nibble) :
    lookup (.leaf kn kv) k = if kn = k then some kv else none := rfl

theorem lookup_ext_eq (en : List Nibble) (c : Trie) (k : List Nibble) :
    lookup (.ext en c) k =
      if en = k.take en.length then lookup c (k.drop en.length) else none := rfl

theorem lookup_branch_nil (cs : List Trie) (bv : Bytes) :
    lookup (.branch cs bv) [] = if bv = [] then none else some bv := rfl

theorem lookup_branch_cons (cs : List Trie) (bv : Bytes) (n : Nibble)
    (ks : List Nibble) :
    lookup (.branch cs bv) (n :: ks) = lookupChild cs n.val ks := rfl

theorem lookupChild_eq (cs : List Trie) (n : Nat) (ks : List Nibble) :
    lookupChild cs n ks = lookup (cs.getD n .empty) ks := by
  induction cs generalizing n with
  | nil => simp [lookupChild, List.getD]; rfl
  | cons c cs ih =>
    cases n with
    | zero => rfl
    | succ m =>
      show lookupChild cs m ks = _
      simpa [List.getD] using ih m

theorem lookup_ext_append (en : List Nibble) (c : Trie) (k : List Nibble) :
    lookup (.ext en c) (en ++ k) = lookup c k := by
  rw [lookup_ext_eq, take_append_self, if_pos rfl, drop_append_self]

theorem insert_leaf_eq (kn : List Nibble) (kv : Bytes) (k : List Nibble)
    (v : Bytes) :
    insert (.leaf kn kv) k v = if kn = k then .leaf k v else splitLeaf kn kv k v :=
  rfl

theorem insert_branch_nil (cs : List Trie) (bv : Bytes) (v : Bytes) :
    insert (.branch cs bv) [] v = .branch cs v := rfl

theorem insert_branch_cons (cs : List Trie) (bv : Bytes) (n : Nibble)
    (ks : List Nibble) (v : Bytes) :
    insert (.branch cs bv) (n :: ks) v = .branch (insertChild cs n.val ks v) bv :=
  rfl

theorem insert_ext_eq (en : List Nibble) (c : Trie) (k : List Nibble) (v : Bytes) :
    insert (.ext en c) k v =
      (if commonPrefixLen en k = en.length then
        .ext en (insert c (k.drop (commonPrefixLen en k)) v)
      else if commonPrefixLen en k = 0 then extSplitCore en c k v
      else .ext (k.take (commonPrefixLen en k)) (extSplitCore en c k v)) := rfl

theorem length_insertChild (cs : List Trie) (n : Nat) (ks : List Nibble)
    (v : Bytes) : (insertChild cs n ks v).length = cs.length := by
  induction cs generalizing n with
  | nil => rfl
  | cons c cs ih =>
    cases n with
    | zero => rfl
    | succ m =>
      show (c :: insertChild cs m ks v).length = _
      simpa using ih m

theorem getD_insertChild_self (cs : List Trie) (n : Nat) (ks : List Nibble)
    (v : Bytes) (h : n < cs.length) :
    (insertChild cs n ks v).getD n .empty = insert (cs.getD n .empty) ks v := by
  induction cs generalizing n with
  | nil => simp at h
  | cons c cs ih =>
    cases n with
    | zero => rfl
    | succ m =>
      show (c :: insertChild cs m ks v).getD (m + 1) .empty = _
      simpa [List.getD] using ih m (by simpa using h)

theorem getD_insertChild_ne (cs : List Trie) (n m : Nat) (ks : List Nibble)
    (v : Bytes) (d : Trie) (h : n ≠ m) :
    (insertChild cs n ks v).getD m d = cs.getD m d := by
  induction cs generalizing n m with
  | nil => rfl
  | cons c cs ih =>
    cases n with
    | zero =>
      cases m with
      | zero => exact absurd rfl h
      | succ j => rfl
    | succ i =>
      cases m with
      | zero => rfl
      | succ j =>
        show (c :: insertChild cs i ks v).getD (j + 1) d = _
        simpa [List.getD] using ih i j (by omega)

theorem canonList_iff (cs : List Trie) :
    canonList cs = true ↔ ∀ c ∈ cs, canon c = true := by
  induction cs with
  | nil => simp [canonList]
  | cons c cs ih =>
    show (canon c && canonList cs) = true ↔ _
    simp [Bool.and_eq_true, ih]

theorem canon_leaf_iff (ns : List Nibble) (v : Bytes) :
    canon (.leaf ns v) = true ↔ v ≠ [] := by
  show decide (v ≠ []) = true ↔ _
  simp

theorem canon_ext_iff (en : List Nibble) (c : Trie) :
    canon (.ext en c) = true ↔
      en ≠ [] ∧ c.isBranchNode = true ∧ canon c = true := by
  show (decide (en ≠ []) && c.isBranchNode && canon c) = true ↔ _
  simp [Bool.and_eq_true, and_assoc]

theorem canon_branch_iff (cs : List Trie) (bv : Bytes) :
    canon (.branch cs bv) = true ↔
      cs.length = 16 ∧ 2 ≤ occupancy cs bv ∧ canonList cs = true := by
  show (decide (cs.length = 16) && decide (2 ≤ occupancy cs bv) && canonList cs)
      = true ↔ _
  simp [Bool.and_eq_true, and_assoc]

/-! ## Lookup on freshly built branch nodes -/

theorem lookup_empty_node (k : List Nibble) : lookup .empty k = none := rfl

theorem length_emptyChildren : emptyChildren.length = 16 := rfl

theorem getD_emptyChildren (j : Nat) (d : Trie) (h : j < 16) :
    emptyChildren.getD j d = .empty := by
  unfold emptyChildren
  exact getD_replicate_lt 16 j .empty d h

theorem lookup_leaf_swap (kn : List Nibble) (kv : Bytes) (k : List Nibble) :
    lookup (.leaf kn kv) k = if k = kn then some kv else none := by
  rw [lookup_leaf]
  by_cases h : kn = k
  · subst h
    simp
  · rw [if_neg h, if_neg (fun hh => h hh.symm)]

theorem lookup_branch_set1_nil (a : Nibble) (X : Trie) (bv : Bytes) :
    lookup (.branch (emptyChildren.set a.val X) bv) [] =
      if bv = [] then none else some bv := rfl

theorem lookup_branch_set1_cons (a : Nibble) (X : Trie) (bv : Bytes)
    (j : Nibble) (ks : List Nibble) :
    lookup (.branch (emptyChildren.set a.val X) bv) (j :: ks) =
      if j = a then lookup X ks else none := by
  rw [lookup_branch_cons, lookupChild_eq]
  by_cases hj : j = a
  · subst hj
    rw [getD_set_self _ _ _ _ (by simp [emptyChildren] : j.val < emptyChildren.length)]
    rw [if_pos rfl]
  · rw [getD_set_ne _ _ _ _ _ (fun h => hj (Fin.ext h).symm)]
    rw [getD_emptyChildren _ _ j.isLt, if_neg hj]
    rfl

theorem lookup_branch_set2_nil (a b : Nibble) (X Y : Trie) (bv : Bytes) :
    lookup (.branch ((emptyChildren.set a.val X).set b.val Y) bv) [] =
      if bv = [] then none else some bv := rfl

theorem lookup_branch_set2_cons (a b : Nibble) (X Y : Trie) (bv : Bytes)
    (j : Nibble) (ks : List Nibble) :
    lookup (.branch ((emptyChildren.set a.val X).set b.val Y) bv) (j :: ks) =
      (if j = b then lookup Y ks
       else if j = a then lookup X ks else none) := by
  rw [lookup_branch_cons, lookupChild_eq]
  by_cases hjb : j = b
  · subst hjb
    rw [getD_set_self _ _ _ _
      (by simp [emptyChildren] : j.val < (emptyChildren.set a.val X).length)]
    rw [if_pos rfl]
  · rw [getD_set_ne _ _ _ _ _ (fun h => hjb (Fin.ext h).symm), if_neg hjb]
    by_cases hja : j = a
    · subst hja
      rw [getD_set_self _ _ _ _ (by simp [emptyChildren] : j.val < emptyChildren.length)]
      rw [if_pos rfl]
    · rw [getD_set_ne _ _ _ _ _ (fun h => hja (Fin.ext h).symm)]
      rw [getD_emptyChildren _ _ j.isLt, if_neg hja]
      rfl

theorem lookup_leaf_of_ne (kn : List Nibble) (kv : Bytes) (k : List Nibble)
    (h : k ≠ kn) : lookup (.leaf kn kv) k = none := by
  rw [lookup_leaf, if_neg (fun hs => h hs.symm)]

theorem lookup_branchOfTwo (r1 : List Nibble) (w1 : Bytes) (r2 : List Nibble)
    (w2 : Bytes) (k : List Nibble) (hw1 : w1 ≠ []) (hw2 : w2 ≠ [])
    (hne : r1 ≠ r2)
    (hheads : ∀ x xs y ys, r1 = x :: xs → r2 = y :: ys → x ≠ y) :
    lookup (branchOfTwo r1 w1 r2 w2) k =
      if k = r2 then some w2 else if k = r1 then some w1 else none := by
  cases r1 with
  | nil =>
    cases r2 with
    | nil => exact absurd rfl hne
    | cons n2 t2 =>
      show lookup (.branch (emptyChildren.set n2.val (.leaf t2 w2)) w1) k = _
      cases k with
      | nil =>
        rw [lookup_branch_set1_nil, if_neg hw1]
        simp
      | cons j ks =>
        rw [lookup_branch_set1_cons]
        by_cases hj : j = n2
        · subst hj
          rw [if_pos rfl, lookup_leaf_swap]
          by_cases hks : ks = t2
          · subst hks
            simp
          · simp [hks]
        · rw [if_neg hj]
          simp [hj]
  | cons n1 t1 =>
    cases r2 with
    | nil =>
      show lookup (.branch (emptyChildren.set n1.val (.leaf t1 w1)) w2) k = _
      cases k with
      | nil =>
        rw [lookup_branch_set1_nil, if_neg hw2]
        simp
      | cons j ks =>
        rw [lookup_branch_set1_cons]
        by_cases hj : j = n1
        · subst hj
          rw [if_pos rfl, lookup_leaf_swap]
          by_cases hks : ks = t1
          · subst hks
            simp
          · simp [hks]
        · rw [if_neg hj]
          simp [hj]
    | cons n2 t2 =>
      have hn12 : n1 ≠ n2 := hheads n1 t1 n2 t2 rfl rfl
      show lookup
          (.branch ((emptyChildren.set n1.val (.leaf t1 w1)).set n2.val (.leaf t2 w2)) [])
          k = _
      cases k with
      | nil =>
        rw [lookup_branch_set2_nil]
        simp
      | cons j ks =>
        rw [lookup_branch_set2_cons]
        by_cases hj2 : j = n2
        · subst hj2
          rw [if_pos rfl, lookup_leaf_swap]
          by_cases hks : ks = t2
          · subst hks
            simp
          · simp [hks, hn12.symm]
        · rw [if_neg hj2]
          by_cases hj1 : j = n1
          · subst hj1
            rw [if_pos rfl, lookup_leaf_swap]
            by_cases hks : ks = t1
            · subst hks
              simp [hj2]
            · simp [hj2, hks]
          · rw [if_neg hj1]
            simp [hj1, hj2]

theorem lookup_splitLeaf (kn : List Nibble) (kv : Bytes) (k : List Nibble)
    (v : Bytes) (k' : List Nibble) (hne : kn ≠ k) (hkv : kv ≠ []) (hv : v ≠ []) :
    lookup (splitLeaf kn kv k v) k' =
      if k' = k then some v else if k' = kn then some kv else none := by
  have htake := take_commonPrefixLen kn k
  have hlep : commonPrefixLen kn k ≤ k.length := commonPrefixLen_le_right kn k
  have hdrop_ne : kn.drop (commonPrefixLen kn k) ≠ k.drop (commonPrefixLen kn k) := by
    intro h
    exact hne ((eq_iff_take_drop kn k (commonPrefixLen kn k)).2 ⟨htake, h⟩)
  have hheads : ∀ x xs y ys,
      kn.drop (commonPrefixLen kn k) = x :: xs →
      k.drop (commonPrefixLen kn k) = y :: ys → x ≠ y :=
    fun x xs y ys ha hb => commonPrefixLen_heads kn k x y xs ys ha hb
  have hB := fun k'' =>
    lookup_branchOfTwo (kn.drop (commonPrefixLen kn k)) kv
      (k.drop (commonPrefixLen kn k)) v k'' hkv hv hdrop_ne hheads
  unfold splitLeaf
  by_cases hp0 : commonPrefixLen kn k = 0
  · rw [if_pos hp0, hp0]
    simp only [List.drop_zero]
    have := hB k'
    rw [hp0] at this
    simpa using this
  · rw [if_neg hp0]
    have hlen : (k.take (commonPrefixLen kn k)).length = commonPrefixLen kn k := by
      rw [List.length_take]
      omega
    rw [lookup_ext_eq, hlen]
    by_cases hpre : k.take (commonPrefixLen kn k) = k'.take (commonPrefixLen kn k)
    · rw [if_pos hpre]
      rw [hB (k'.drop (commonPrefixLen kn k))]
      by_cases hd2 : k'.drop (commonPrefixLen kn k) = k.drop (commonPrefixLen kn k)
      · have hk : k' = k :=
          (eq_iff_take_drop k' k (commonPrefixLen kn k)).2 ⟨hpre.symm, hd2⟩
        rw [if_pos hd2, if_pos hk]
      · have hk : k' ≠ k := by
          intro h
          subst h
          exact hd2 rfl
        rw [if_neg hd2, if_neg hk]
        by_cases hd1 : k'.drop (commonPrefixLen kn k) = kn.drop (commonPrefixLen kn k)
        · have hk1 : k' = kn :=
            (eq_iff_take_drop k' kn (commonPrefixLen kn k)).2
              ⟨hpre.symm.trans htake.symm, hd1⟩
          rw [if_pos hd1, if_pos hk1]
        · have hk1 : k' ≠ kn := by
            intro h
            subst h
            exact hd1 rfl
          rw [if_neg hd1, if_neg hk1]
    · rw [if_neg hpre]
      have hk : k' ≠ k := by
        intro h
        subst h
        exact hpre rfl
      have hk1 : k' ≠ kn := by
        intro h
        subst h
        exact hpre (htake.symm.trans (by rw [htake]))
      rw [if_neg hk, if_neg hk1]

/-! ## Lookup through extension nodes -/

theorem lookup_ext_nil_path (c : Trie) (k : List Nibble) :
    lookup (.ext [] c) k = lookup c k := by
  rw [lookup_ext_eq]
  simp

theorem lookup_ext_nil_key (e0 : Nibble) (erest : List Nibble) (c : Trie) :
    lookup (.ext (e0 :: erest) c) [] = none := by
  rw [lookup_ext_eq]
  simp

theorem lookup_ext_cons (e0 : Nibble) (erest : List Nibble) (c : Trie)
    (j : Nibble) (ks : List Nibble) :
    lookup (.ext (e0 :: erest) c) (j :: ks) =
      if j = e0 then lookup (.ext erest c) ks else none := by
  rw [lookup_ext_eq, lookup_ext_eq]
  simp only [List.length_cons, List.take_succ_cons, List.drop_succ_cons]
  by_cases hj : j = e0
  · subst hj
    by_cases h2 : erest = ks.take erest.length
    · rw [if_pos (by rw [← h2]), if_pos rfl, if_pos h2]
    · rw [if_neg (by simp [h2]), if_pos rfl, if_neg h2]
  · rw [if_neg (show ¬(e0 :: erest = j :: ks.take erest.length) by
        intro hcc
        injection hcc with h1 _
        exact hj h1.symm),
      if_neg hj]

theorem lookup_extTail (erest : List Nibble) (c : Trie) (ks : List Nibble) :
    lookup (extTail erest c) ks = lookup (.ext erest c) ks := by
  cases erest with
  | nil => rw [lookup_ext_nil_path]; rfl
  | cons e es => rfl

theorem lookup_ext_split_path (en : List Nibble) (c : Trie) (k' : List Nibble)
    (p : Nat) (hple : p ≤ en.length) (hpre : k'.take p = en.take p) :
    lookup (.ext en c) k' = lookup (.ext (en.drop p) c) (k'.drop p) := by
  induction p generalizing en k' with
  | zero => simp
  | succ q ih =>
    cases en with
    | nil => simp at hple
    | cons e en2 =>
      cases k' with
      | nil => simp at hpre
      | cons j ks =>
        simp only [List.take_succ_cons, List.cons.injEq] at hpre
        obtain ⟨hj, hks⟩ := hpre
        subst hj
        rw [List.drop_succ_cons, List.drop_succ_cons, lookup_ext_cons, if_pos rfl]
        exact ih en2 ks (by simpa using hple) hks

theorem extChildren_eq (en : List Nibble) (c : Trie) (p : Nat) (e0 : Nibble)
    (erest : List Nibble) (hen : en.drop p = e0 :: erest) :
    extChildren en c p = emptyChildren.set e0.val (extTail erest c) := by
  unfold extChildren
  rw [hen]

theorem extSplitCore_nil (en : List Nibble) (c : Trie) (k : List Nibble)
    (v : Bytes) (h : k.drop (commonPrefixLen en k) = []) :
    extSplitCore en c k v = .branch (extChildren en c (commonPrefixLen en k)) v := by
  unfold extSplitCore
  rw [h]

theorem extSplitCore_cons (en : List Nibble) (c : Trie) (k : List Nibble)
    (v : Bytes) (n : Nibble) (krest : List Nibble)
    (h : k.drop (commonPrefixLen en k) = n :: krest) :
    extSplitCore en c k v =
      .branch ((extChildren en c (commonPrefixLen en k)).set n.val (.leaf krest v)) [] := by
  unfold extSplitCore
  rw [h]

theorem lookup_extSplitCore (en : List Nibble) (c : Trie) (k : List Nibble)
    (v : Bytes) (k'' : List Nibble) (hv : v ≠ []) (e0 : Nibble)
    (erest : List Nibble) (hen : en.drop (commonPrefixLen en k) = e0 :: erest) :
    lookup (extSplitCore en c k v) k'' =
      if k'' = k.drop (commonPrefixLen en k) then some v
      else lookup (.ext (e0 :: erest) c) k'' := by
  cases hkd : k.drop (commonPrefixLen en k) with
  | nil =>
    rw [extSplitCore_nil en c k v hkd, extChildren_eq en c _ e0 erest hen]
    cases k'' with
    | nil =>
      rw [lookup_branch_set1_nil, if_neg hv, if_pos rfl]
    | cons j ks =>
      rw [lookup_branch_set1_cons, if_neg (List.cons_ne_nil j ks), lookup_ext_cons]
      by_cases hj : j = e0
      · rw [if_pos hj, if_pos hj, lookup_extTail]
      · rw [if_neg hj, if_neg hj]
  | cons n krest =>
    have hne0 : e0 ≠ n := commonPrefixLen_heads en k e0 n erest krest hen hkd
    rw [extSplitCore_cons en c k v n krest hkd, extChildren_eq en c _ e0 erest hen]
    cases k'' with
    | nil =>
      rw [lookup_branch_set2_nil, if_pos rfl,
        if_neg (fun h : ([] : List Nibble) = n :: krest => List.noConfusion h),
        lookup_ext_nil_key]
    | cons j ks =>
      rw [lookup_branch_set2_cons, lookup_ext_cons]
      by_cases hjn : j = n
      · subst hjn
        rw [if_pos rfl, lookup_leaf_swap]
        by_cases hks : ks = krest
        · subst hks
          rw [if_pos rfl, if_pos rfl]
        · rw [if_neg hks, if_neg (by simp [hks]), if_neg (fun h => hne0 h.symm)]
      · rw [if_neg hjn, if_neg (show ¬(j :: ks = n :: krest) by simp [hjn])]
        by_cases hje : j = e0
        · rw [if_pos hje, lookup_extTail, if_pos hje]
        · rw [if_neg hje, if_neg hje]

theorem lookup_insert_ext (en : List Nibble) (c : Trie) (k : List Nibble)
    (v : Bytes) (k' : List Nibble) (hv : v ≠ [])
    (hne : commonPrefixLen en k ≠ en.length) :
    lookup (insert (.ext en c) k v) k' =
      if k' = k then some v else lookup (.ext en c) k' := by
  have hplt : commonPrefixLen en k < en.length :=
    lt_of_le_of_ne (commonPrefixLen_le_left en k) hne
  have hplek : commonPrefixLen en k ≤ k.length := commonPrefixLen_le_right en k
  have htakeq : en.take (commonPrefixLen en k) = k.take (commonPrefixLen en k) :=
    take_commonPrefixLen en k
  obtain ⟨e0, erest, hen⟩ :
      ∃ e0 erest, en.drop (commonPrefixLen en k) = e0 :: erest := by
    cases hh : en.drop (commonPrefixLen en k) with
    | nil =>
      have : en.length - commonPrefixLen en k = 0 := by
        have := congrArg List.length hh
        simpa using this
      omega
    | cons a b => exact ⟨a, b, rfl⟩
  have hcore := fun k'' => lookup_extSplitCore en c k v k'' hv e0 erest hen
  rw [insert_ext_eq, if_neg hne]
  by_cases hp0 : commonPrefixLen en k = 0
  · rw [if_pos hp0, hcore k']
    have hen0 : en = e0 :: erest := by
      have := hen
      rw [hp0] at this
      simpa using this
    rw [hp0, List.drop_zero, hen0]
  · rw [if_neg hp0]
    have hlen : (k.take (commonPrefixLen en k)).length = commonPrefixLen en k := by
      rw [List.length_take]
      omega
    rw [lookup_ext_eq, hlen]
    by_cases hpre : k.take (commonPrefixLen en k) = k'.take (commonPrefixLen en k)
    · rw [if_pos hpre, hcore (k'.drop (commonPrefixLen en k))]
      by_cases hd : k'.drop (commonPrefixLen en k) = k.drop (commonPrefixLen en k)
      · have hk : k' = k :=
          (eq_iff_take_drop k' k (commonPrefixLen en k)).2 ⟨hpre.symm, hd⟩
        rw [if_pos hd, if_pos hk]
      · have hk : k' ≠ k := by
          intro h
          subst h
          exact hd rfl
        rw [if_neg hd, if_neg hk,
          lookup_ext_split_path en c k' (commonPrefixLen en k) (le_of_lt hplt)
            (hpre.symm.trans htakeq.symm), hen]
    · rw [if_neg hpre]
      have hk : k' ≠ k := by
        intro h
        subst h
        exact hpre rfl
      rw [if_neg hk, lookup_ext_eq, if_neg ?hcond]
      case hcond =>
        intro hcond
        apply hpre
        have h2 := congrArg (List.take (commonPrefixLen en k)) hcond
        rw [List.take_take] at h2
        have hmin : min (commonPrefixLen en k) en.length = commonPrefixLen en k := by
          omega
        rw [hmin] at h2
        exact htakeq.symm.trans h2

/-! ## Node-shape and occupancy lemmas -/

theorem splitLeaf_eq (kn : List Nibble) (kv : Bytes) (k : List Nibble) (v : Bytes) :
    splitLeaf kn kv k v =
      (if commonPrefixLen kn k = 0 then
        branchOfTwo (kn.drop (commonPrefixLen kn k)) kv (k.drop (commonPrefixLen kn k)) v
      else
        .ext (k.take (commonPrefixLen kn k))
          (branchOfTwo (kn.drop (commonPrefixLen kn k)) kv
            (k.drop (commonPrefixLen kn k)) v)) := rfl

theorem branchOfTwo_not_empty (r1 : List Nibble) (w1 : Bytes) (r2 : List Nibble)
    (w2 : Bytes) : (branchOfTwo r1 w1 r2 w2).isEmptyNode = false := by
  cases r1 <;> cases r2 <;> rfl

theorem branchOfTwo_isBranch (r1 : List Nibble) (w1 : Bytes) (r2 : List Nibble)
    (w2 : Bytes) (h : ¬(r1 = [] ∧ r2 = [])) :
    (branchOfTwo r1 w1 r2 w2).isBranchNode = true := by
  cases r1 with
  | nil =>
    cases r2 with
    | nil => exact absurd ⟨rfl, rfl⟩ h
    | cons a b => rfl
  | cons a b => cases r2 <;> rfl

theorem extSplitCore_isBranch (en : List Nibble) (c : Trie) (k : List Nibble)
    (v : Bytes) : (extSplitCore en c k v).isBranchNode = true := by
  unfold extSplitCore
  cases k.drop (commonPrefixLen en k) <;> rfl

theorem isBranch_not_empty (t : Trie) (h : t.isBranchNode = true) :
    t.isEmptyNode = false := by
  cases t <;> simp [Trie.isBranchNode, Trie.isEmptyNode] at h ⊢

theorem insert_not_empty (t : Trie) (k : List Nibble) (v : Bytes) :
    (insert t k v).isEmptyNode = false := by
  cases t with
  | empty => rfl
  | leaf kn kv =>
    rw [insert_leaf_eq]
    by_cases h : kn = k
    · rw [if_pos h]
      rfl
    · rw [if_neg h, splitLeaf_eq]
      by_cases hp : commonPrefixLen kn k = 0
      · rw [if_pos hp]
        exact branchOfTwo_not_empty _ _ _ _
      · rw [if_neg hp]
        rfl
  | ext en c =>
    rw [insert_ext_eq]
    by_cases hfull : commonPrefixLen en k = en.length
    · rw [if_pos hfull]
      rfl
    · rw [if_neg hfull]
      by_cases hp : commonPrefixLen en k = 0
      · rw [if_pos hp]
        exact isBranch_not_empty _ (extSplitCore_isBranch en c k v)
      · rw [if_neg hp]
        rfl
  | branch cs bv =>
    cases k with
    | nil => rfl
    | cons n ks => rfl

theorem insert_branch_isBranch (cs : List Trie) (bv : Bytes) (k : List Nibble)
    (v : Bytes) : (insert (.branch cs bv) k v).isBranchNode = true := by
  cases k with
  | nil => rfl
  | cons n ks => rfl

theorem extTail_not_empty (erest : List Nibble) (c : Trie)
    (hc : c.isEmptyNode = false) : (extTail erest c).isEmptyNode = false := by
  cases erest with
  | nil => exact hc
  | cons e es => rfl

theorem countP_set_incr (cs : List Trie) (n : Nat) (x : Trie)
    (hn : n < cs.length) (hold : (cs.getD n .empty).isEmptyNode = true)
    (hx : x.isEmptyNode = false) :
    (cs.set n x).countP (fun c => !c.isEmptyNode)
      = cs.countP (fun c => !c.isEmptyNode) + 1 := by
  induction cs generalizing n with
  | nil => simp at hn
  | cons a as ih =>
    cases n with
    | zero =>
      have ha : a.isEmptyNode = true := hold
      simp [List.countP_cons, ha, hx]
    | succ m =>
      have hih := ih m (by simpa using hn) (by simpa [List.getD] using hold)
      show ((a :: as.set m x).countP fun c => !c.isEmptyNode) = _
      simp only [List.countP_cons, hih]
      omega

theorem countP_emptyChildren :
    emptyChildren.countP (fun c => !c.isEmptyNode) = 0 := rfl

theorem countP_insertChild_ge (cs : List Trie) (n : Nat) (ks : List Nibble)
    (v : Bytes) :
    cs.countP (fun c => !c.isEmptyNode)
      ≤ (insertChild cs n ks v).countP (fun c => !c.isEmptyNode) := by
  induction cs generalizing n with
  | nil => simp [insertChild]
  | cons a as ih =>
    cases n with
    | zero =>
      show _ ≤ ((insert a ks v :: as).countP fun c => !c.isEmptyNode)
      simp only [List.countP_cons, insert_not_empty]
      have h1 : (if (!a.isEmptyNode) = true then 1 else 0) ≤ 1 := by
        cases a.isEmptyNode <;> simp
      have h2 : (if (!false : Bool) = true then 1 else 0) = 1 := by simp
      omega
    | succ m =>
      show _ ≤ ((a :: insertChild as m ks v).countP fun c => !c.isEmptyNode)
      simp only [List.countP_cons]
      have := ih m
      omega

theorem canonList_emptyChildren : canonList emptyChildren = true := rfl

theorem canonList_set (cs : List Trie) (i : Nat) (x : Trie)
    (hcs : canonList cs = true) (hx : canon x = true) :
    canonList (cs.set i x) = true := by
  induction cs generalizing i with
  | nil => exact hcs
  | cons a as ih =>
    have hl := (canonList_iff (a :: as)).1 hcs
    cases i with
    | zero =>
      show (canon x && canonList as) = true
      rw [hx, Bool.true_and]
      exact (canonList_iff as).2 (fun c hc => hl c (List.mem_cons_of_mem a hc))
    | succ m =>
      show (canon a && canonList (as.set m x)) = true
      rw [hl a (List.mem_cons_self a as), Bool.true_and]
      exact ih m ((canonList_iff as).2
        (fun c hc => hl c (List.mem_cons_of_mem a hc)))

/-! ## Functional correctness of insertion -/

theorem getD_mem {α : Type} (l : List α) (n : Nat) (d : α) (h : n < l.length) :
    l.getD n d ∈ l := by
  induction l generalizing n with
  | nil => simp at h
  | cons a as ih =>
    cases n with
    | zero => exact List.mem_cons_self a as
    | succ m =>
      have := ih m (by simpa using h)
      exact List.mem_cons_of_mem a (by simpa [List.getD] using this)

theorem lookup_insert (t : Trie) (k : List Nibble) (v : Bytes) (k' : List Nibble)
    (hc : canon t = true) (hv : v ≠ []) :
    lookup (insert t k v) k' = if k' = k then some v else lookup t k' := by
  induction t using trie_ind generalizing k k' with
  | hempty =>
    show lookup (.leaf k v) k' = _
    rw [lookup_leaf_swap]
    by_cases h : k' = k
    · rw [if_pos h, if_pos h]
    · rw [if_neg h, if_neg h]
      rfl
  | hleaf kn kv =>
    have hkv : kv ≠ [] := (canon_leaf_iff kn kv).1 hc
    rw [insert_leaf_eq]
    by_cases hkn : kn = k
    · subst hkn
      rw [if_pos rfl, lookup_leaf_swap, lookup_leaf_swap]
      by_cases h : k' = kn
      · rw [if_pos h, if_pos h]
      · rw [if_neg h, if_neg h, if_neg h]
    · rw [if_neg hkn, lookup_splitLeaf kn kv k v k' hkn hkv hv, lookup_leaf_swap]
  | hext en c ih =>
    obtain ⟨hen_ne, hcb, hcc⟩ := (canon_ext_iff en c).1 hc
    by_cases hfull : commonPrefixLen en k = en.length
    · rw [insert_ext_eq, if_pos hfull, hfull]
      have htakeq : en.take (commonPrefixLen en k) = k.take (commonPrefixLen en k) :=
        take_commonPrefixLen en k
      have henk : en = k.take en.length := by
        have := htakeq
        rw [hfull, List.take_length] at this
        exact this
      rw [lookup_ext_eq, lookup_ext_eq]
      by_cases hq : en = k'.take en.length
      · rw [if_pos hq, if_pos hq, ih (k.drop en.length) (k'.drop en.length) hcc]
        by_cases hd : k'.drop en.length = k.drop en.length
        · have hk : k' = k := (eq_iff_take_drop k' k en.length).2
            ⟨hq.symm.trans henk, hd⟩
          rw [if_pos hd, if_pos hk]
        · have hk : k' ≠ k := by
            intro h
            subst h
            exact hd rfl
          rw [if_neg hd, if_neg hk]
      · rw [if_neg hq, if_neg hq]
        have hk : k' ≠ k := by
          intro h
          subst h
          exact hq henk
        rw [if_neg hk]
    · exact lookup_insert_ext en c k v k' hv hfull
  | hbranch cs bv ih =>
    obtain ⟨hlen16, hocc, hcl⟩ := (canon_branch_iff cs bv).1 hc
    cases k with
    | nil =>
      rw [insert_branch_nil]
      cases k' with
      | nil =>
        rw [lookup_branch_nil, if_neg hv, if_pos rfl]
      | cons j ks' =>
        rw [lookup_branch_cons, lookup_branch_cons,
          if_neg (List.cons_ne_nil j ks')]
    | cons n ks =>
      rw [insert_branch_cons]
      cases k' with
      | nil =>
        rw [lookup_branch_nil, lookup_branch_nil,
          if_neg (fun h : ([] : List Nibble) = n :: ks => List.noConfusion h)]
      | cons j ks' =>
        rw [lookup_branch_cons, lookup_branch_cons, lookupChild_eq, lookupChild_eq]
        by_cases hj : j = n
        · subst hj
          rw [getD_insertChild_self cs j.val ks v (by rw [hlen16]; exact j.isLt)]
          have hmem : cs.getD j.val .empty ∈ cs :=
            getD_mem cs j.val .empty (by rw [hlen16]; exact j.isLt)
          have hcchild : canon (cs.getD j.val .empty) = true :=
            (canonList_iff cs).1 hcl _ hmem
          rw [ih _ hmem ks ks' hcchild]
          by_cases hks : ks' = ks
          · subst hks
            rw [if_pos rfl, if_pos rfl]
          · rw [if_neg hks, if_neg (show ¬(j :: ks' = j :: ks) by simp [hks])]
        · rw [getD_insertChild_ne cs n.val j.val ks v .empty
            (fun h => hj (Fin.ext h).symm)]
          rw [if_neg (show ¬(j :: ks' = n :: ks) by simp [hj])]

/-! ## Canonical form is preserved by insertion -/

theorem insert_isBranch_of_isBranch (c : Trie) (hcb : c.isBranchNode = true)
    (k : List Nibble) (v : Bytes) : (insert c k v).isBranchNode = true := by
  cases c with
  | branch cs bv => exact insert_branch_isBranch cs bv k v
  | empty => simp [Trie.isBranchNode] at hcb
  | leaf a b => simp [Trie.isBranchNode] at hcb
  | ext a b => simp [Trie.isBranchNode] at hcb

theorem canon_branchOfTwo (r1 : List Nibble) (w1 : Bytes) (r2 : List Nibble)
    (w2 : Bytes) (hw1 : w1 ≠ []) (hw2 : w2 ≠ [])
    (hnn : ¬(r1 = [] ∧ r2 = []))
    (hheads : ∀ x xs y ys, r1 = x :: xs → r2 = y :: ys → x ≠ y) :
    canon (branchOfTwo r1 w1 r2 w2) = true := by
  cases r1 with
  | nil =>
    cases r2 with
    | nil => exact absurd ⟨rfl, rfl⟩ hnn
    | cons n2 t2 =>
      show canon (.branch (emptyChildren.set n2.val (.leaf t2 w2)) w1) = true
      rw [canon_branch_iff]
      refine ⟨by rw [List.length_set]; rfl, ?_, ?_⟩
      · unfold occupancy
        rw [countP_set_incr emptyChildren n2.val (.leaf t2 w2)
            (by rw [length_emptyChildren]; exact n2.isLt)
            (by rw [getD_emptyChildren _ _ n2.isLt]; rfl) rfl,
          countP_emptyChildren, if_neg hw1]
      · exact canonList_set emptyChildren n2.val _ canonList_emptyChildren
          ((canon_leaf_iff t2 w2).2 hw2)
  | cons n1 t1 =>
    cases r2 with
    | nil =>
      show canon (.branch (emptyChildren.set n1.val (.leaf t1 w1)) w2) = true
      rw [canon_branch_iff]
      refine ⟨by rw [List.length_set]; rfl, ?_, ?_⟩
      · unfold occupancy
        rw [countP_set_incr emptyChildren n1.val (.leaf t1 w1)
            (by rw [length_emptyChildren]; exact n1.isLt)
            (by rw [getD_emptyChildren _ _ n1.isLt]; rfl) rfl,
          countP_emptyChildren, if_neg hw2]
      · exact canonList_set emptyChildren n1.val _ canonList_emptyChildren
          ((canon_leaf_iff t1 w1).2 hw1)
    | cons n2 t2 =>
      have hn12 : n1 ≠ n2 := hheads n1 t1 n2 t2 rfl rfl
      show canon
        (.branch ((emptyChildren.set n1.val (.leaf t1 w1)).set n2.val (.leaf t2 w2)) [])
        = true
      rw [canon_branch_iff]
      refine ⟨by rw [List.length_set, List.length_set]; rfl, ?_, ?_⟩
      · unfold occupancy
        have hgd : (emptyChildren.set n1.val (.leaf t1 w1)).getD n2.val .empty
            = .empty := by
          rw [getD_set_ne _ _ _ _ _ (fun h => hn12 (Fin.ext h)),
            getD_emptyChildren _ _ n2.isLt]
        rw [countP_set_incr (emptyChildren.set n1.val (.leaf t1 w1)) n2.val
            (.leaf t2 w2)
            (by rw [List.length_set, length_emptyChildren]; exact n2.isLt)
            (by rw [hgd]; rfl) rfl,
          countP_set_incr emptyChildren n1.val (.leaf t1 w1)
            (by rw [length_emptyChildren]; exact n1.isLt)
            (by rw [getD_emptyChildren _ _ n1.isLt]; rfl) rfl,
          countP_emptyChildren]
        simp
      · exact canonList_set _ n2.val _
          (canonList_set emptyChildren n1.val _ canonList_emptyChildren
            ((canon_leaf_iff t1 w1).2 hw1))
          ((canon_leaf_iff t2 w2).2 hw2)

theorem canon_splitLeaf (kn : List Nibble) (kv : Bytes) (k : List Nibble)
    (v : Bytes) (hne : kn ≠ k) (hkv : kv ≠ []) (hv : v ≠ []) :
    canon (splitLeaf kn kv k v) = true := by
  have hnn : ¬(kn.drop (commonPrefixLen kn k) = []
      ∧ k.drop (commonPrefixLen kn k) = []) :=
    fun h => hne (eq_of_drops_nil kn k h.1 h.2)
  have hheads : ∀ x xs y ys,
      kn.drop (commonPrefixLen kn k) = x :: xs →
      k.drop (commonPrefixLen kn k) = y :: ys → x ≠ y :=
    fun x xs y ys ha hb => commonPrefixLen_heads kn k x y xs ys ha hb
  have hcb := canon_branchOfTwo (kn.drop (commonPrefixLen kn k)) kv
    (k.drop (commonPrefixLen kn k)) v hkv hv hnn hheads
  rw [splitLeaf_eq]
  by_cases hp : commonPrefixLen kn k = 0
  · rw [if_pos hp]
    exact hcb
  · rw [if_neg hp, canon_ext_iff]
    exact ⟨take_ne_nil_of_pos k (commonPrefixLen kn k) (by omega)
        (commonPrefixLen_le_right kn k),
      branchOfTwo_isBranch _ _ _ _ hnn, hcb⟩

theorem canon_extSplitCore (en : List Nibble) (c : Trie) (k : List Nibble)
    (v : Bytes) (hv : v ≠ []) (hcb : c.isBranchNode = true)
    (hcc : canon c = true) (e0 : Nibble) (erest : List Nibble)
    (hen : en.drop (commonPrefixLen en k) = e0 :: erest) :
    canon (extSplitCore en c k v) = true := by
  have hct : canon (extTail erest c) = true := by
    cases erest with
    | nil => exact hcc
    | cons e es =>
      show canon (.ext (e :: es) c) = true
      rw [canon_ext_iff]
      exact ⟨List.cons_ne_nil e es, hcb, hcc⟩
  have hcte : (extTail erest c).isEmptyNode = false :=
    extTail_not_empty _ _ (isBranch_not_empty c hcb)
  cases hkd : k.drop (commonPrefixLen en k) with
  | nil =>
    rw [extSplitCore_nil _ _ _ _ hkd, extChildren_eq _ _ _ _ _ hen,
      canon_branch_iff]
    refine ⟨by rw [List.length_set]; rfl, ?_, ?_⟩
    · unfold occupancy
      rw [countP_set_incr emptyChildren e0.val (extTail erest c)
          (by rw [length_emptyChildren]; exact e0.isLt)
          (by rw [getD_emptyChildren _ _ e0.isLt]; rfl) hcte,
        countP_emptyChildren, if_neg hv]
    · exact canonList_set emptyChildren e0.val _ canonList_emptyChildren hct
  | cons n krest =>
    have hne0 : e0 ≠ n := commonPrefixLen_heads en k e0 n erest krest hen hkd
    rw [extSplitCore_cons _ _ _ _ _ _ hkd, extChildren_eq _ _ _ _ _ hen,
      canon_branch_iff]
    refine ⟨by rw [List.length_set, List.length_set]; rfl, ?_, ?_⟩
    · unfold occupancy
      have hgd : (emptyChildren.set e0.val (extTail erest c)).getD n.val .empty
          = .empty := by
        rw [getD_set_ne _ _ _ _ _ (fun h => hne0 (Fin.ext h)),
          getD_emptyChildren _ _ n.isLt]
      rw [countP_set_incr (emptyChildren.set e0.val (extTail erest c)) n.val
          (.leaf krest v)
          (by rw [List.length_set, length_emptyChildren]; exact n.isLt)
          (by rw [hgd]; rfl) rfl,
        countP_set_incr emptyChildren e0.val (extTail erest c)
          (by rw [length_emptyChildren]; exact e0.isLt)
          (by rw [getD_emptyChildren _ _ e0.isLt]; rfl) hcte,
        countP_emptyChildren]
      simp
    · exact canonList_set _ n.val _
        (canonList_set emptyChildren e0.val _ canonList_emptyChildren hct)
        ((canon_leaf_iff krest v).2 hv)

theorem mem_insertChild (cs : List Trie) (n : Nat) (ks : List Nibble)
    (v : Bytes) (c' : Trie) (h : c' ∈ insertChild cs n ks v) :
    c' ∈ cs ∨ ∃ cold, cold ∈ cs ∧ c' = insert cold ks v := by
  induction cs generalizing n with
  | nil =>
    rw [show insertChild [] n ks v = [] from rfl] at h
    simp at h
  | cons a as ih =>
    cases n with
    | zero =>
      rw [show insertChild (a :: as) 0 ks v = insert a ks v :: as from rfl] at h
      rcases List.mem_cons.1 h with h1 | h2
      · exact Or.inr ⟨a, List.mem_cons_self a as, h1⟩
      · exact Or.inl (List.mem_cons_of_mem a h2)
    | succ m =>
      rw [show insertChild (a :: as) (m + 1) ks v
          = a :: insertChild as m ks v from rfl] at h
      rcases List.mem_cons.1 h with h1 | h2
      · exact Or.inl (h1 ▸ List.mem_cons_self a as)
      · rcases ih m h2 with h3 | ⟨cold, hc', he⟩
        · exact Or.inl (List.mem_cons_of_mem a h3)
        · exact Or.inr ⟨cold, List.mem_cons_of_mem a hc', he⟩

theorem canon_insert (t : Trie) (k : List Nibble) (v : Bytes)
    (hc : canon t = true) (hv : v ≠ []) : canon (insert t k v) = true := by
  induction t using trie_ind generalizing k with
  | hempty =>
    show canon (.leaf k v) = true
    exact (canon_leaf_iff k v).2 hv
  | hleaf kn kv =>
    have hkv := (canon_leaf_iff kn kv).1 hc
    rw [insert_leaf_eq]
    by_cases h : kn = k
    · rw [if_pos h]
      exact (canon_leaf_iff k v).2 hv
    · rw [if_neg h]
      exact canon_splitLeaf kn kv k v h hkv hv
  | hext en c ih =>
    obtain ⟨hen_ne, hcb, hcc⟩ := (canon_ext_iff en c).1 hc
    rw [insert_ext_eq]
    by_cases hfull : commonPrefixLen en k = en.length
    · rw [if_pos hfull, canon_ext_iff]
      exact ⟨hen_ne, insert_isBranch_of_isBranch c hcb _ v,
        ih (k.drop (commonPrefixLen en k)) hcc⟩
    · have hplt : commonPrefixLen en k < en.length :=
        lt_of_le_of_ne (commonPrefixLen_le_left en k) hfull
      obtain ⟨e0, erest, hen⟩ :
          ∃ e0 erest, en.drop (commonPrefixLen en k) = e0 :: erest := by
        cases hh : en.drop (commonPrefixLen en k) with
        | nil =>
          have := congrArg List.length hh
          simp at this
          omega
        | cons a b => exact ⟨a, b, rfl⟩
      have hcore := canon_extSplitCore en c k v hv hcb hcc e0 erest hen
      rw [if_neg hfull]
      by_cases hp : commonPrefixLen en k = 0
      · rw [if_pos hp]
        exact hcore
      · rw [if_neg hp, canon_ext_iff]
        exact ⟨take_ne_nil_of_pos k (commonPrefixLen en k) (by omega)
            (commonPrefixLen_le_right en k),
          extSplitCore_isBranch en c k v, hcore⟩
  | hbranch cs bv ih =>
    obtain ⟨hlen, hocc, hcl⟩ := (canon_branch_iff cs bv).1 hc
    cases k with
    | nil =>
      rw [insert_branch_nil, canon_branch_iff]
      refine ⟨hlen, ?_, hcl⟩
      unfold occupancy at hocc ⊢
      have h1 : (if v = [] then 0 else 1) = 1 := by rw [if_neg hv]
      have hb : (if bv = [] then 0 else 1) ≤ 1 := by
        by_cases h : bv = [] <;> simp [h]
      omega
    | cons n ks =>
      rw [insert_branch_cons, canon_branch_iff]
      refine ⟨by rw [length_insertChild]; exact hlen, ?_, ?_⟩
      · unfold occupancy at hocc ⊢
        have := countP_insertChild_ge cs n.val ks v
        omega
      · rw [canonList_iff]
        intro c' hc'
        rcases mem_insertChild cs n.val ks v c' hc' with h1 | ⟨cold, hcold, rfl⟩
        · exact (canonList_iff cs).1 hcl c' h1
        · exact ih cold hcold ks ((canonList_iff cs).1 hcl cold hcold)

/-! ## Canonical tries are determined by their key/value content -/

/-- Two keys differ already at their first position: one is empty and the
other is not, or their heads differ. -/
def FirstDiff : List Nibble → List Nibble → Prop
  | [], [] => False
  | [], _ :: _ => True
  | _ :: _, [] => True
  | a :: _, b :: _ => a ≠ b

theorem FirstDiff_ne (k1 k2 : List Nibble) (h : FirstDiff k1 k2) : k1 ≠ k2 := by
  cases k1 with
  | nil =>
    cases k2 with
    | nil => exact absurd h (by simp [FirstDiff])
    | cons b bs => exact fun hh => List.noConfusion hh
  | cons a as =>
    cases k2 with
    | nil => exact fun hh => List.noConfusion hh
    | cons b bs =>
      intro hh
      injection hh with h1 _
      exact h h1

theorem FirstDiff_take (r1 r2 : List Nibble) (d : Nat) (hd : 1 ≤ d)
    (h : r1.take d = r2.take d) (hfd : FirstDiff r1 r2) : False := by
  cases r1 with
  | nil =>
    cases r2 with
    | nil => exact hfd
    | cons b bs =>
      cases d with
      | zero => omega
      | succ m => simp [List.take_succ_cons] at h
  | cons a as =>
    cases r2 with
    | nil =>
      cases d with
      | zero => omega
      | succ m => simp [List.take_succ_cons] at h
    | cons b bs =>
      cases d with
      | zero => omega
      | succ m =>
        simp only [List.take_succ_cons, List.cons.injEq] at h
        exact hfd h.1

theorem getD_ge {α : Type} (l : List α) (i : Nat) (d : α) (h : l.length ≤ i) :
    l.getD i d = d := by
  induction l generalizing i with
  | nil => rfl
  | cons a as ih =>
    cases i with
    | zero => simp at h
    | succ m =>
      show as.getD m d = d
      exact ih m (by simpa using h)

theorem lookup_leaf_some (kn : List Nibble) (kv : Bytes) (k : List Nibble)
    (w : Bytes) (h : lookup (.leaf kn kv) k = some w) : k = kn ∧ w = kv := by
  rw [lookup_leaf_swap] at h
  by_cases hk : k = kn
  · rw [if_pos hk] at h
    injection h with h1
    exact ⟨hk, h1.symm⟩
  · rw [if_neg hk] at h
    exact Option.noConfusion h

theorem lookup_ext_some (en : List Nibble) (c : Trie) (k : List Nibble)
    (w : Bytes) (h : lookup (.ext en c) k = some w) :
    k.take en.length = en ∧ lookup c (k.drop en.length) = some w := by
  rw [lookup_ext_eq] at h
  by_cases hq : en = k.take en.length
  · rw [if_pos hq] at h
    exact ⟨hq.symm, h⟩
  · rw [if_neg hq] at h
    exact Option.noConfusion h

theorem countP_cons_empty (a : Trie) (as : List Trie)
    (ha : a.isEmptyNode = true) :
    (a :: as).countP (fun c => !c.isEmptyNode)
      = as.countP (fun c => !c.isEmptyNode) := by
  rw [List.countP_cons]
  simp only [ha, Bool.not_true]
  rfl

theorem countP_cons_nonempty (a : Trie) (as : List Trie)
    (ha : a.isEmptyNode = false) :
    (a :: as).countP (fun c => !c.isEmptyNode)
      = as.countP (fun c => !c.isEmptyNode) + 1 := by
  rw [List.countP_cons]
  simp only [ha, Bool.not_false]
  rfl

theorem one_nonempty_child (cs : List Trie)
    (h : 1 ≤ cs.countP (fun c => !c.isEmptyNode)) :
    ∃ i, i < cs.length ∧ (cs.getD i .empty).isEmptyNode = false := by
  induction cs with
  | nil => simp [List.countP_nil] at h
  | cons a as ih =>
    by_cases ha : a.isEmptyNode = true
    · have h1 : 1 ≤ as.countP (fun c => !c.isEmptyNode) := by
        rw [countP_cons_empty a as ha] at h
        exact h
      obtain ⟨i, hi, hine⟩ := ih h1
      exact ⟨i + 1, Nat.succ_lt_succ hi, by simpa [List.getD] using hine⟩
    · have hane : a.isEmptyNode = false := by
        revert ha
        cases a.isEmptyNode <;> simp
      exact ⟨0, Nat.succ_pos _, hane⟩

theorem two_nonempty_children (cs : List Trie)
    (h : 2 ≤ cs.countP (fun c => !c.isEmptyNode)) :
    ∃ i j, i < cs.length ∧ j < cs.length ∧ i ≠ j ∧
      (cs.getD i .empty).isEmptyNode = false ∧
      (cs.getD j .empty).isEmptyNode = false := by
  induction cs with
  | nil => simp [List.countP_nil] at h
  | cons a as ih =>
    by_cases ha : a.isEmptyNode = true
    · have h2 : 2 ≤ as.countP (fun c => !c.isEmptyNode) := by
        rw [countP_cons_empty a as ha] at h
        exact h
      obtain ⟨i, j, hi, hj, hij, hine, hjne⟩ := ih h2
      exact ⟨i + 1, j + 1, Nat.succ_lt_succ hi, Nat.succ_lt_succ hj,
        by omega, by simpa [List.getD] using hine, by simpa [List.getD] using hjne⟩
    · have hane : a.isEmptyNode = false := by
        revert ha
        cases a.isEmptyNode <;> simp
      have h1 : 1 ≤ as.countP (fun c => !c.isEmptyNode) := by
        rw [countP_cons_nonempty a as hane] at h
        omega
      obtain ⟨i, hi, hine⟩ := one_nonempty_child as h1
      exact ⟨0, i + 1, Nat.succ_pos _, Nat.succ_lt_succ hi, by omega, hane,
        by simpa [List.getD] using hine⟩

theorem canon_has_key (t : Trie) (hc : canon t = true)
    (hne : t.isEmptyNode = false) : ∃ k w, lookup t k = some w := by
  induction t using trie_ind with
  | hempty => simp [Trie.isEmptyNode] at hne
  | hleaf kn kv => exact ⟨kn, kv, by rw [lookup_leaf, if_pos rfl]⟩
  | hext en c ih =>
    obtain ⟨hen_ne, hcb, hcc⟩ := (canon_ext_iff en c).1 hc
    obtain ⟨k, w, hk⟩ := ih hcc (isBranch_not_empty c hcb)
    exact ⟨en ++ k, w, by rw [lookup_ext_append]; exact hk⟩
  | hbranch cs bv ih =>
    obtain ⟨hlen, hocc, hcl⟩ := (canon_branch_iff cs bv).1 hc
    by_cases hbv : bv = []
    · have hcp : 1 ≤ cs.countP (fun c => !c.isEmptyNode) := by
        unfold occupancy at hocc
        rw [if_pos hbv] at hocc
        omega
      obtain ⟨i, hi, hine⟩ := one_nonempty_child cs hcp
      have hmem := getD_mem cs i .empty hi
      have hcanon := (canonList_iff cs).1 hcl _ hmem
      obtain ⟨k, w, hk⟩ := ih _ hmem hcanon hine
      have hi16 : i < 16 := hlen ▸ hi
      refine ⟨(⟨i, hi16⟩ : Fin 16) :: k, w, ?_⟩
      rw [lookup_branch_cons, lookupChild_eq]
      exact hk
    · exact ⟨[], bv, by rw [lookup_branch_nil, if_neg hbv]⟩

theorem branch_two_keys (cs : List Trie) (bv : Bytes)
    (hc : canon (.branch cs bv) = true) :
    ∃ k1 w1 k2 w2, lookup (.branch cs bv) k1 = some w1 ∧
      lookup (.branch cs bv) k2 = some w2 ∧ FirstDiff k1 k2 := by
  obtain ⟨hlen, hocc, hcl⟩ := (canon_branch_iff cs bv).1 hc
  by_cases hbv : bv = []
  · have hcp : 2 ≤ cs.countP (fun c => !c.isEmptyNode) := by
      unfold occupancy at hocc
      rw [if_pos hbv] at hocc
      omega
    obtain ⟨i, j, hi, hj, hij, hine, hjne⟩ := two_nonempty_children cs hcp
    have hmi := getD_mem cs i .empty hi
    have hmj := getD_mem cs j .empty hj
    obtain ⟨ki, wi, hki⟩ :=
      canon_has_key _ ((canonList_iff cs).1 hcl _ hmi) hine
    obtain ⟨kj, wj, hkj⟩ :=
      canon_has_key _ ((canonList_iff cs).1 hcl _ hmj) hjne
    have hi16 : i < 16 := hlen ▸ hi
    have hj16 : j < 16 := hlen ▸ hj
    refine ⟨(⟨i, hi16⟩ : Fin 16) :: ki, wi, (⟨j, hj16⟩ : Fin 16) :: kj, wj,
      ?_, ?_, ?_⟩
    · rw [lookup_branch_cons, lookupChild_eq]
      exact hki
    · rw [lookup_branch_cons, lookupChild_eq]
      exact hkj
    · show (⟨i, hi16⟩ : Fin 16) ≠ ⟨j, hj16⟩
      exact fun h => hij (congrArg Fin.val h)
  · have hcp : 1 ≤ cs.countP (fun c => !c.isEmptyNode) := by
      unfold occupancy at hocc
      rw [if_neg hbv] at hocc
      omega
    obtain ⟨i, hi, hine⟩ := one_nonempty_child cs hcp
    have hmi := getD_mem cs i .empty hi
    obtain ⟨ki, wi, hki⟩ :=
      canon_has_key _ ((canonList_iff cs).1 hcl _ hmi) hine
    have hi16 : i < 16 := hlen ▸ hi
    refine ⟨[], bv, (⟨i, hi16⟩ : Fin 16) :: ki, wi, ?_, ?_, trivial⟩
    · rw [lookup_branch_nil, if_neg hbv]
    · rw [lookup_branch_cons, lookupChild_eq]
      exact hki

theorem isBranch_exists (c : Trie) (h : c.isBranchNode = true) :
    ∃ cs bv, c = .branch cs bv := by
  cases c with
  | branch cs bv => exact ⟨cs, bv, rfl⟩
  | empty => simp [Trie.isBranchNode] at h
  | leaf a b => simp [Trie.isBranchNode] at h
  | ext a b => simp [Trie.isBranchNode] at h

theorem empty_of_isEmptyNode (t : Trie) (h : t.isEmptyNode = true) :
    t = .empty := by
  cases t with
  | empty => rfl
  | leaf a b => simp [Trie.isEmptyNode] at h
  | ext a b => simp [Trie.isEmptyNode] at h
  | branch a b => simp [Trie.isEmptyNode] at h

theorem take_append_len {α : Type} (a b : List α) (m : Nat) :
    (a ++ b).take (a.length + m) = a ++ b.take m := by
  induction a with
  | nil => simp
  | cons x xs ih =>
    show ((x :: (xs ++ b)).take (xs.length + 1 + m)) = x :: (xs ++ b.take m)
    have harith : xs.length + 1 + m = (xs.length + m) + 1 := by omega
    rw [harith, List.take_succ_cons, ih]

theorem ext_two_keys (en : List Nibble) (c : Trie)
    (hc : canon (.ext en c) = true) :
    ∃ r1 w1 r2 w2, lookup (.ext en c) (en ++ r1) = some w1 ∧
      lookup (.ext en c) (en ++ r2) = some w2 ∧ FirstDiff r1 r2 := by
  obtain ⟨hen_ne, hcb, hcc⟩ := (canon_ext_iff en c).1 hc
  obtain ⟨cs, bv, rfl⟩ := isBranch_exists c hcb
  obtain ⟨r1, w1, r2, w2, h1, h2, hfd⟩ := branch_two_keys cs bv hcc
  exact ⟨r1, w1, r2, w2, by rw [lookup_ext_append]; exact h1,
    by rw [lookup_ext_append]; exact h2, hfd⟩

theorem ext_keys_bound (en : List Nibble) (c : Trie)
    (hc : canon (.ext en c) = true) (q : List Nibble)
    (hq : ∀ k w, lookup (.ext en c) k = some w → k.take q.length = q) :
    q.length ≤ en.length := by
  by_contra hlt
  push_neg at hlt
  obtain ⟨r1, w1, r2, w2, h1, h2, hfd⟩ := ext_two_keys en c hc
  have ht1 := hq _ _ h1
  have ht2 := hq _ _ h2
  have hql : q.length = en.length + (q.length - en.length) := by omega
  rw [hql, take_append_len] at ht1 ht2
  have hr : r1.take (q.length - en.length) = r2.take (q.length - en.length) :=
    List.append_cancel_left (ht1.trans ht2.symm)
  exact FirstDiff_take r1 r2 (q.length - en.length) (by omega) hr hfd

theorem ext_path_eq (en : List Nibble) (c : Trie) (en' : List Nibble)
    (c' : Trie) (hc : canon (.ext en c) = true)
    (hc' : canon (.ext en' c') = true)
    (heq : ∀ k, lookup (.ext en c) k = lookup (.ext en' c') k) : en = en' := by
  have hb1 : en'.length ≤ en.length :=
    ext_keys_bound en c hc en' (fun k w hk =>
      (lookup_ext_some en' c' k w (by rw [← heq k]; exact hk)).1)
  have hb2 : en.length ≤ en'.length :=
    ext_keys_bound en' c' hc' en (fun k w hk =>
      (lookup_ext_some en c k w (by rw [heq k]; exact hk)).1)
  obtain ⟨k, w, hk⟩ := canon_has_key _ hc rfl
  have he := (lookup_ext_some en c k w hk).1
  have he' := (lookup_ext_some en' c' k w (by rw [← heq k]; exact hk)).1
  have hlen : en.length = en'.length := le_antisymm hb2 hb1
  rw [← he, ← he', hlen]

theorem ext_key_shape (e : Nibble) (en2 : List Nibble) (c : Trie)
    (k : List Nibble) (w : Bytes)
    (h : lookup (.ext (e :: en2) c) k = some w) : ∃ ks, k = e :: ks := by
  have hts := (lookup_ext_some (e :: en2) c k w h).1
  cases k with
  | nil => simp at hts
  | cons j ks =>
    rw [List.length_cons, List.take_succ_cons] at hts
    injection hts with h1 _
    exact ⟨ks, by rw [h1]⟩

theorem canon_lookup_inj (t1 t2 : Trie) (hc1 : canon t1 = true)
    (hc2 : canon t2 = true) (heq : ∀ k, lookup t1 k = lookup t2 k) :
    t1 = t2 := by
  induction t1 using trie_ind generalizing t2 with
  | hempty =>
    cases t2 with
    | empty => rfl
    | leaf kn kv =>
      have hk : lookup (.leaf kn kv) kn = some kv := by
        rw [lookup_leaf, if_pos rfl]
      exact Option.noConfusion ((heq kn).trans hk)
    | ext en c =>
      obtain ⟨k, w, hk⟩ := canon_has_key _ hc2 rfl
      exact Option.noConfusion ((heq k).trans hk)
    | branch cs bv =>
      obtain ⟨k, w, hk⟩ := canon_has_key _ hc2 rfl
      exact Option.noConfusion ((heq k).trans hk)
  | hleaf kn kv =>
    cases t2 with
    | empty =>
      have hk : lookup (.leaf kn kv) kn = some kv := by
        rw [lookup_leaf, if_pos rfl]
      exact Option.noConfusion ((heq kn).symm.trans hk)
    | leaf kn' kv' =>
      have hk : lookup (.leaf kn' kv') kn = some kv := by
        rw [← heq kn, lookup_leaf, if_pos rfl]
      obtain ⟨h1, h2⟩ := lookup_leaf_some kn' kv' kn kv hk
      rw [h1, h2]
    | ext en c =>
      obtain ⟨r1, w1, r2, w2, h1, h2, hfd⟩ := ext_two_keys en c hc2
      have e1 := (lookup_leaf_some kn kv _ _ (by rw [heq (en ++ r1)]; exact h1)).1
      have e2 := (lookup_leaf_some kn kv _ _ (by rw [heq (en ++ r2)]; exact h2)).1
      have hr : r1 = r2 := List.append_cancel_left (e1.trans e2.symm)
      exact absurd hr (FirstDiff_ne r1 r2 hfd)
    | branch cs bv =>
      obtain ⟨k1, w1, k2, w2, h1, h2, hfd⟩ := branch_two_keys cs bv hc2
      have e1 := (lookup_leaf_some kn kv _ _ (by rw [heq k1]; exact h1)).1
      have e2 := (lookup_leaf_some kn kv _ _ (by rw [heq k2]; exact h2)).1
      exact absurd (e1.trans e2.symm) (FirstDiff_ne k1 k2 hfd)
  | hext en c ih =>
    cases t2 with
    | empty =>
      obtain ⟨k, w, hk⟩ := canon_has_key _ hc1 rfl
      exact Option.noConfusion ((heq k).symm.trans hk)
    | leaf kn' kv' =>
      obtain ⟨r1, w1, r2, w2, h1, h2, hfd⟩ := ext_two_keys en c hc1
      have e1 := (lookup_leaf_some kn' kv' _ _
        (by rw [← heq (en ++ r1)]; exact h1)).1
      have e2 := (lookup_leaf_some kn' kv' _ _
        (by rw [← heq (en ++ r2)]; exact h2)).1
      have hr : r1 = r2 := List.append_cancel_left (e1.trans e2.symm)
      exact absurd hr (FirstDiff_ne r1 r2 hfd)
    | ext en' c' =>
      have hpe : en = en' := ext_path_eq en c en' c' hc1 hc2 heq
      subst hpe
      obtain ⟨hen_ne, hcb, hcc⟩ := (canon_ext_iff en c).1 hc1
      obtain ⟨hen_ne', hcb', hcc'⟩ := (canon_ext_iff en c').1 hc2
      have heqc : ∀ k, lookup c k = lookup c' k := fun k => by
        have hh := heq (en ++ k)
        rw [lookup_ext_append, lookup_ext_append] at hh
        exact hh
      rw [ih c' hcc hcc' heqc]
    | branch cs' bv' =>
      obtain ⟨hen_ne, hcb, hcc⟩ := (canon_ext_iff en c).1 hc1
      obtain ⟨e, en2, rfl⟩ : ∃ e en2, en = e :: en2 := by
        cases en with
        | nil => exact absurd rfl hen_ne
        | cons a b => exact ⟨a, b, rfl⟩
      obtain ⟨k1, w1, k2, w2, h1, h2, hfd⟩ := branch_two_keys cs' bv' hc2
      obtain ⟨ks1, rfl⟩ := ext_key_shape e en2 c k1 w1 (by rw [heq k1]; exact h1)
      obtain ⟨ks2, rfl⟩ := ext_key_shape e en2 c k2 w2 (by rw [heq k2]; exact h2)
      exact absurd rfl hfd
  | hbranch cs bv ih =>
    cases t2 with
    | empty =>
      obtain ⟨k, w, hk⟩ := canon_has_key _ hc1 rfl
      exact Option.noConfusion ((heq k).symm.trans hk)
    | leaf kn' kv' =>
      obtain ⟨k1, w1, k2, w2, h1, h2, hfd⟩ := branch_two_keys cs bv hc1
      have e1 := (lookup_leaf_some kn' kv' _ _ (by rw [← heq k1]; exact h1)).1
      have e2 := (lookup_leaf_some kn' kv' _ _ (by rw [← heq k2]; exact h2)).1
      exact absurd (e1.trans e2.symm) (FirstDiff_ne k1 k2 hfd)
    | ext en' c' =>
      obtain ⟨hen_ne', hcb', hcc'⟩ := (canon_ext_iff en' c').1 hc2
      obtain ⟨e, en2, rfl⟩ : ∃ e en2, en' = e :: en2 := by
        cases en' with
        | nil => exact absurd rfl hen_ne'
        | cons a b => exact ⟨a, b, rfl⟩
      obtain ⟨k1, w1, k2, w2, h1, h2, hfd⟩ := branch_two_keys cs bv hc1
      obtain ⟨ks1, rfl⟩ := ext_key_shape e en2 c' k1 w1
        (by rw [← heq k1]; exact h1)
      obtain ⟨ks2, rfl⟩ := ext_key_shape e en2 c' k2 w2
        (by rw [← heq k2]; exact h2)
      exact absurd rfl hfd
    | branch cs' bv' =>
      obtain ⟨hlen, hocc, hcl⟩ := (canon_branch_iff cs bv).1 hc1
      obtain ⟨hlen', hocc', hcl'⟩ := (canon_branch_iff cs' bv').1 hc2
      have hbv : bv = bv' := by
        have h0 := heq []
        rw [lookup_branch_nil, lookup_branch_nil] at h0
        by_cases hb : bv = []
        · by_cases hb' : bv' = []
          · rw [hb, hb']
          · rw [if_pos hb, if_neg hb'] at h0
            exact Option.noConfusion h0
        · by_cases hb' : bv' = []
          · rw [if_neg hb, if_pos hb'] at h0
            exact Option.noConfusion h0
          · rw [if_neg hb, if_neg hb'] at h0
            injection h0
      have hch : ∀ i, cs.getD i .empty = cs'.getD i .empty := by
        intro i
        by_cases hi : i < 16
        · have hsub : ∀ ks,
              lookup (cs.getD i .empty) ks = lookup (cs'.getD i .empty) ks := by
            intro ks
            have hh := heq ((⟨i, hi⟩ : Fin 16) :: ks)
            rw [lookup_branch_cons, lookup_branch_cons, lookupChild_eq,
              lookupChild_eq] at hh
            exact hh
          have hm : cs.getD i .empty ∈ cs :=
            getD_mem cs i .empty (by rw [hlen]; exact hi)
          have hm' : cs'.getD i .empty ∈ cs' :=
            getD_mem cs' i .empty (by rw [hlen']; exact hi)
          have hcan : canon (cs.getD i .empty) = true :=
            (canonList_iff cs).1 hcl _ hm
          have hcan' : canon (cs'.getD i .empty) = true :=
            (canonList_iff cs').1 hcl' _ hm'
          by_cases he1 : (cs.getD i .empty).isEmptyNode = true
          · by_cases he2 : (cs'.getD i .empty).isEmptyNode = true
            · rw [empty_of_isEmptyNode _ he1, empty_of_isEmptyNode _ he2]
            · have he2f : (cs'.getD i .empty).isEmptyNode = false := by
                revert he2
                cases (cs'.getD i .empty).isEmptyNode <;> simp
              obtain ⟨k, w, hk⟩ := canon_has_key _ hcan' he2f
              have hnone : lookup (cs.getD i .empty) k = none := by
                rw [empty_of_isEmptyNode _ he1]
                rfl
              exact Option.noConfusion ((hnone.symm.trans (hsub k)).trans hk)
          · by_cases he2 : (cs'.getD i .empty).isEmptyNode = true
            · have he1f : (cs.getD i .empty).isEmptyNode = false := by
                revert he1
                cases (cs.getD i .empty).isEmptyNode <;> simp
              obtain ⟨k, w, hk⟩ := canon_has_key _ hcan he1f
              have hnone : lookup (cs'.getD i .empty) k = none := by
                rw [empty_of_isEmptyNode _ he2]
                rfl
              exact Option.noConfusion ((hnone.symm.trans (hsub k).symm).trans hk)
            · exact ih _ hm _ hcan hcan' hsub
        · rw [getD_ge cs i .empty (by rw [hlen]; omega),
            getD_ge cs' i .empty (by rw [hlen']; omega)]
      have hcs := list_eq_of_getD cs cs' .empty (hlen.trans hlen'.symm) hch
      rw [hcs, hbv]

/-! ## Order independence of insertions, and the two-leaf shortcut -/

theorem insert_insert_comm (t : Trie) (k1 : List Nibble) (v1 : Bytes)
    (k2 : List Nibble) (v2 : Bytes) (hc : canon t = true) (hne : k1 ≠ k2)
    (hv1 : v1 ≠ []) (hv2 : v2 ≠ []) :
    insert (insert t k1 v1) k2 v2 = insert (insert t k2 v2) k1 v1 := by
  apply canon_lookup_inj
  · exact canon_insert _ k2 v2 (canon_insert _ k1 v1 hc hv1) hv2
  · exact canon_insert _ k1 v1 (canon_insert _ k2 v2 hc hv2) hv1
  · intro k
    rw [lookup_insert _ k2 v2 k (canon_insert _ k1 v1 hc hv1) hv2,
      lookup_insert _ k1 v1 k hc hv1,
      lookup_insert _ k1 v1 k (canon_insert _ k2 v2 hc hv2) hv1,
      lookup_insert _ k2 v2 k hc hv2]
    by_cases h1 : k = k1
    · subst h1
      rw [if_neg (fun h : k = k2 => hne h), if_pos rfl, if_pos rfl]
    · by_cases h2 : k = k2
      · rw [if_pos h2, if_neg h1, if_pos h2]
      · rw [if_neg h2, if_neg h1, if_neg h1, if_neg h2]

/-- The manual two-leaf branch construction used by the reference tests:
a single Branch whose children at the two keys' first nibbles are Leaf
nodes carrying the keys truncated by one nibble (children written in
order sender first, receiver second, each slot set by first-nibble
dispatch), with an empty branch value. -/
def manualTwoLeaf (h1 : Nibble) (t1 : List Nibble) (v1 : Bytes)
    (h2 : Nibble) (t2 : List Nibble) (v2 : Bytes) : Trie :=
  .branch ((emptyChildren.set h1.val (.leaf t1 v1)).set h2.val (.leaf t2 v2)) []

theorem commonPrefixLen_cons (a b : Nibble) (as bs : List Nibble) :
    commonPrefixLen (a :: as) (b :: bs) =
      if a = b then commonPrefixLen as bs + 1 else 0 := rfl

theorem manualTwoLeaf_eq_insert (h1 : Nibble) (t1 : List Nibble) (v1 : Bytes)
    (h2 : Nibble) (t2 : List Nibble) (v2 : Bytes) (hh : h1 ≠ h2) :
    insert (insert .empty (h1 :: t1) v1) (h2 :: t2) v2
      = manualTwoLeaf h1 t1 v1 h2 t2 v2 := by
  show insert (.leaf (h1 :: t1) v1) (h2 :: t2) v2 = _
  have hkne : (h1 :: t1 : List Nibble) ≠ h2 :: t2 := by
    intro h
    injection h with ha _
    exact hh ha
  rw [insert_leaf_eq, if_neg hkne, splitLeaf_eq, commonPrefixLen_cons,
    if_neg hh, if_pos rfl]
  rfl

theorem insert_two_headeq_ext (h0 : Nibble) (t1 : List Nibble) (v1 : Bytes)
    (t2 : List Nibble) (v2 : Bytes)
    (hne : (h0 :: t1 : List Nibble) ≠ h0 :: t2) :
    ∃ q core, insert (insert .empty (h0 :: t1) v1) (h0 :: t2) v2
      = .ext q core := by
  show ∃ q core, insert (.leaf (h0 :: t1) v1) (h0 :: t2) v2 = .ext q core
  rw [insert_leaf_eq, if_neg hne, splitLeaf_eq, commonPrefixLen_cons,
    if_pos rfl]
  rw [if_neg (by omega : ¬(commonPrefixLen t1 t2 + 1 = 0))]
  exact ⟨_, _, rfl⟩

theorem encL_cons_head (a b : Nat) (l m : List Nat)
    (h : encL (a :: l) = encL (b :: m)) : a = b := by
  unfold encL at h
  have h2 : Nat.pair a (encL l) = Nat.pair b (encL m) := by omega
  have h3 := congrArg Nat.unpair h2
  rw [Nat.unpair_pair, Nat.unpair_pair] at h3
  exact congrArg Prod.fst h3

theorem trieHash_ext_ne_branch (ns : List Nibble) (c : Trie)
    (cs : List Trie) (bv : Bytes) :
    trieHash (.ext ns c) ≠ trieHash (.branch cs bv) := by
  intro h
  have h1 : trieHash (.ext ns c) = encL (2 :: [pathCode ns, trieHash c]) := rfl
  have h2 : trieHash (.branch cs bv) = encL (3 :: (H bv :: childHashes cs)) := rfl
  rw [h1, h2] at h
  have := encL_cons_head 2 3 _ _ h
  omega

/-! ## Account records and recursive length-prefix encoding -/

/-- Modelled from the spec (section 3): one account's ledger state; all
four fields are 256-bit quantities (nonce and balance unsigned integers,
storageRoot and codeHash hashes), kept as naturals here. -/
structure AccountRlp where
  nonce : Nat
  balance : Nat
  storage_root : Nat
  code_hash : Nat
deriving Repr, DecidableEq

/-- Minimal big-endian byte expansion of a natural (empty for zero); the
first argument is recursion fuel, always instantiated with the number
itself, which bounds the digit count. -/
def natBEAux : Nat → Nat → List Nat
  | 0, _ => []
  | fuel + 1, n => if n = 0 then [] else natBEAux fuel (n / 256) ++ [n % 256]

/-- Minimal big-endian byte string of a natural; zero encodes as the empty
string, as the reference encoding requires. -/
def natBE (n : Nat) : List Nat := natBEAux n n

/-- Fixed-width 32-byte big-endian expansion of a 256-bit word. -/
def be32Aux : Nat → Nat → List Nat
  | 0, _ => []
  | m + 1, n => be32Aux m (n / 256) ++ [n % 256]

/-- The 32-byte big-endian string of a 256-bit hash value. -/
def be32 (n : Nat) : List Nat := be32Aux 32 n

/-- Modelled from the spec (section 6): the canonical recursive
length-prefix encoding of one byte string: a single small byte stands for
itself, short strings get a 0x80-based length prefix, longer ones a
length-of-length prefix. -/
def rlpBytes (bs : List Nat) : List Nat :=
  if bs.length = 1 ∧ bs.headD 0 < 128 then bs
  else if bs.length < 56 then (128 + bs.length) :: bs
  else (183 + (natBE bs.length).length) :: (natBE bs.length ++ bs)

/-- Encoding of an unsigned integer: its minimal big-endian bytes. -/
def rlpNat (n : Nat) : List Nat := rlpBytes (natBE n)

/-- Encoding of a 256-bit hash: its fixed 32-byte string. -/
def rlpWord (h : Nat) : List Nat := rlpBytes (be32 h)

/-- The list header of the canonical encoding, by payload length. -/
def rlpListHeader (payloadLen : Nat) : List Nat :=
  if payloadLen < 56 then [192 + payloadLen]
  else (247 + (natBE payloadLen).length) :: natBE payloadLen

/-- Modelled from the spec (section 4.2): canonical serialization of an
account record, fields in the order nonce, balance, storageRoot,
codeHash. -/
def encodeAccount (a : AccountRlp) : Bytes :=
  rlpListHeader
    (rlpNat a.nonce ++ rlpNat a.balance ++ rlpWord a.storage_root
      ++ rlpWord a.code_hash).length
  ++ (rlpNat a.nonce ++ rlpNat a.balance ++ rlpWord a.storage_root
      ++ rlpWord a.code_hash)

theorem encodeAccount_ne_nil (a : AccountRlp) : encodeAccount a ≠ [] := by
  unfold encodeAccount rlpListHeader
  split <;> simp

/-! ## Values from the reference test (src/simple-transfer.rs) -/

/-- Keccak-256 of the empty byte string, keccak([]): a fixed constant of
the external hash function. -/
def keccakEmpty : Nat :=
  0xc5d2460186f7233c927e7db2dcc703c0e500b653ca82273b7bfad8045d85a470

/-- The upper bound of unsigned 256-bit integers. -/
def u256Bound : Nat := 2 ^ 256

/-- Translated from src/simple-transfer.rs, eth_to_wei: multiplies an
ether amount by 10^18 in U256 arithmetic; U256 multiplication panics on
overflow (it never wraps), which the model surfaces as none. -/
def eth_to_wei (eth : Nat) : Option Nat :=
  if eth * 10 ^ 18 < u256Bound then some (eth * 10 ^ 18) else none

/-- Modelled from the spec (section 4.4): the canonical zero-account — the
default account record: zero nonce and balance, empty storage trie root,
hash of empty code. -/
def zeroAccount : AccountRlp :=
  { nonce := 0
    balance := 0
    storage_root := emptyTrieCommitment
    code_hash := keccakEmpty }

/-- Modelled from the spec: the sender state key, Keccak-256 of the sender
address 0x2c7536e3605d9c16a7a3d7b1898e529396a65c23 split into 64 nibbles
most significant first; the external hash value is taken as a constant. -/
def sender_nibbles : List Nibble :=
  [2, 15, 9, 3, 13, 0, 13, 15, 11, 1, 5, 6, 2, 12, 0, 3, 12, 8, 2, 5, 10, 3,
   3, 14, 14, 12, 4, 4, 3, 8, 14, 4, 6, 8, 12, 1, 7, 15, 15, 15, 6, 4, 9, 10,
   14, 8, 4, 4, 12, 0, 0, 4, 0, 6, 5, 9, 8, 5, 10, 14, 2, 9, 4, 5]

/-- Modelled from the spec: the receiver state key, Keccak-256 of the
receiver address 0xa0a0a0a0a0a0a0a0a0a0a0a0a0a0a0a0a0a0a0a0 split into 64
nibbles most significant first; the external hash value is taken as a
constant. -/
def to_nibbles : List Nibble :=
  [12, 14, 10, 3, 7, 1, 7, 11, 2, 3, 10, 2, 9, 15, 6, 5, 11, 2, 0, 7, 15, 6,
   5, 8, 2, 13, 15, 14, 5, 10, 14, 3, 10, 6, 14, 13, 15, 11, 12, 8, 1, 8, 7,
   4, 1, 2, 7, 8, 9, 11, 1, 1, 5, 13, 6, 4, 4, 8, 4, 6, 4, 9, 8, 2]

/-- Translated from src/simple-transfer.rs: the sender's pre-state account
(nonce 5, balance 100000 ether in wei, empty storage, empty code). -/
def sender_account_before : AccountRlp :=
  { nonce := 5
    balance := (eth_to_wei 100000).getD 0
    storage_root := emptyTrieCommitment
    code_hash := keccakEmpty }

/-- Translated from src/simple-transfer.rs: the receiver's pre-state
account, AccountRlp::default(). -/
def to_account_before : AccountRlp := zeroAccount

/-- Translated from src/simple-transfer.rs: the transferred value. -/
def txn_value : Nat := 100

/-- Translated from src/simple-transfer.rs: gas charged for the
transaction data, 2 * 16. -/
def txdata_gas : Nat := 2 * 16

/-- Translated from src/simple-transfer.rs: total gas used,
21000 + txdata_gas. -/
def gas_used : Nat := 21000 + txdata_gas

/-- The gas price of the reference transaction (10, hard-coded as the
factor in the sender's debit in the source). -/
def gas_price : Nat := 10

/-- Translated from src/simple-transfer.rs: the sender's expected
post-state account: balance minus value minus gas_used * 10, nonce
bumped by one. -/
def sender_account_after : AccountRlp :=
  { sender_account_before with
      balance := sender_account_before.balance - txn_value - gas_used * 10
      nonce := sender_account_before.nonce + 1 }

/-- Translated from src/simple-transfer.rs: the receiver's expected
post-state account: the default account holding the transferred value. -/
def to_account_after : AccountRlp :=
  { to_account_before with balance := txn_value }

/-- Translated from src/simple-transfer.rs (expected_state_trie_after):
the manual Branch of the two Leaf children keyed by first-nibble dispatch,
carrying the re-encoded post-state accounts under the keys truncated by
one nibble. -/
def expected_state_trie_after : Trie :=
  manualTwoLeaf (sender_nibbles.headD 0) sender_nibbles.tail
    (encodeAccount sender_account_after)
    (to_nibbles.headD 0) to_nibbles.tail
    (encodeAccount to_account_after)

/-! ## The state-transition engine and the prover/verifier boundary -/

/-- Modelled from the spec (section 4.4): apply one transfer to a state
trie snapshot: debit the sender by value + gasUsed * gasPrice and bump its
nonce, credit the receiver by value (starting from the canonical
zero-account when it had no record), and insert both re-encoded accounts
into a fresh trie built from scratch, never touching the input snapshot;
fails with InsufficientBalance when the sender balance cannot cover the
debit, in which case no trie is produced. -/
def applyTransfer (_preTrie : Trie) (senderKey : List Nibble)
    (senderBefore : AccountRlp) (receiverKey : List Nibble)
    (receiverBefore : Option AccountRlp) (value gasUsed gasPrice : Nat) :
    Except TrieError Trie :=
  if senderBefore.balance < value + gasUsed * gasPrice then
    .error .InsufficientBalance
  else
    .ok (insert
      (insert Trie.empty senderKey
        (encodeAccount
          { senderBefore with
              balance := senderBefore.balance - (value + gasUsed * gasPrice)
              nonce := senderBefore.nonce + 1 }))
      receiverKey
      (encodeAccount
        { receiverBefore.getD zeroAccount with
            balance := (receiverBefore.getD zeroAccount).balance + value }))

/-- The triple of root commitments carried in the proof's public values. -/
structure TrieRoots where
  state_root : Nat
  transactions_root : Nat
  receipts_root : Nat
deriving Repr, DecidableEq

/-- Modelled from the spec (section 3): the proof returned by the external
prover, opaque except for the claimed post-state roots in its public
values. -/
structure EvmProof where
  trie_roots_after : TrieRoots
deriving Repr, DecidableEq

/-- Modelled from the spec (section 3): the input bundle handed to the
external prover (the fields the core scope manipulates). -/
structure GenerationInputs where
  signed_txn : Bytes
  state_trie : Trie

/-- Modelled from the spec (sections 2 and 6): the test's control flow
around the external prover/verifier pair: run the prover, compare its
claimed post-state root with the independently computed expected trie's
hash, then hand the proof to the external verifier; every failure of the
prover, of the comparison or of the verifier is surfaced as an error,
never ignored. -/
def runTransferProof (prover : GenerationInputs → Except TrieError EvmProof)
    (verifier : EvmProof → Except TrieError Unit)
    (inputs : GenerationInputs) (expectedAfter : Trie) :
    Except TrieError Unit :=
  match prover inputs with
  | .error e => .error e
  | .ok proof =>
      if proof.trie_roots_after.state_root = trieHash expectedAfter then
        verifier proof
      else .error .VerificationFailed

theorem applyTransfer_lookup (pre : Trie) (sk : List Nibble) (sb : AccountRlp)
    (rk : List Nibble) (rb : Option AccountRlp) (value gasUsed gasPrice : Nat)
    (T : Trie) (hne : sk ≠ rk)
    (h : applyTransfer pre sk sb rk rb value gasUsed gasPrice = .ok T) :
    lookup T sk = some (encodeAccount
      { sb with balance := sb.balance - (value + gasUsed * gasPrice)
                nonce := sb.nonce + 1 }) ∧
    lookup T rk = some (encodeAccount
      { rb.getD zeroAccount with
          balance := (rb.getD zeroAccount).balance + value }) := by
  unfold applyTransfer at h
  by_cases hg : sb.balance < value + gasUsed * gasPrice
  · rw [if_pos hg] at h
    exact Except.noConfusion h
  · rw [if_neg hg] at h
    injection h with hT
    subst hT
    have hc1 : canon (insert Trie.empty sk (encodeAccount
        { sb with balance := sb.balance - (value + gasUsed * gasPrice)
                  nonce := sb.nonce + 1 })) = true :=
      canon_insert _ _ _ rfl (encodeAccount_ne_nil _)
    constructor
    · rw [lookup_insert _ _ _ _ hc1 (encodeAccount_ne_nil _), if_neg hne,
        lookup_insert Trie.empty sk _ sk rfl (encodeAccount_ne_nil _),
        if_pos rfl]
    · rw [lookup_insert _ _ _ _ hc1 (encodeAccount_ne_nil _), if_pos rfl]

/-- C1: every transfer applied by applyTransfer leaves, in the produced
trie, a sender account equal to the pre-state account with its balance
decreased by value + gasUsed * gasPrice and its nonce increased by one,
and a receiver account equal to its pre-state account (the canonical
zero-account when absent) with its balance increased by value and all
other fields unchanged; in the reference scenario (nonce 5, balance
100000 * 10^18, value 100, gas 21032 at price 10) the sender-after balance
is 100000 * 10^18 - 100 - 210320 with nonce 6, and the receiver-after
balance is 100. -/
theorem applyTransfer_correct :
    (∀ (pre : Trie) (sk : List Nibble) (sb : AccountRlp) (rk : List Nibble)
        (rb : Option AccountRlp) (value gasUsed gasPrice : Nat) (T : Trie),
      sk ≠ rk →
      applyTransfer pre sk sb rk rb value gasUsed gasPrice = .ok T →
      lookup T sk = some (encodeAccount
        { sb with balance := sb.balance - (value + gasUsed * gasPrice)
                  nonce := sb.nonce + 1 }) ∧
      lookup T rk = some (encodeAccount
        { rb.getD zeroAccount with
            balance := (rb.getD zeroAccount).balance + value })) ∧
    sender_account_after.balance = 100000 * 10 ^ 18 - 100 - 210320 ∧
    sender_account_after.nonce = 6 ∧
    to_account_after.balance = 100 ∧
    sender_account_after.storage_root = sender_account_before.storage_root ∧
    sender_account_after.code_hash = sender_account_before.code_hash := by
  refine ⟨?_, by decide, by decide, by decide, rfl, rfl⟩
  intro pre sk sb rk rb value gasUsed gasPrice T hne h
  exact applyTransfer_lookup pre sk sb rk rb value gasUsed gasPrice T hne h

/-- The concrete pre-state account of the witness scenario for C1. -/
def witnessAccount : AccountRlp :=
  { nonce := 0, balance := 1000, storage_root := 0, code_hash := 0 }

/-- The concrete post-state trie of the witness scenario for C1. -/
def witnessTrie : Trie :=
  insert
    (insert Trie.empty [0]
      (encodeAccount
        { witnessAccount with
            balance := witnessAccount.balance - (100 + 1 * 10)
            nonce := witnessAccount.nonce + 1 }))
    [1]
    (encodeAccount
      { (none : Option AccountRlp).getD zeroAccount with
          balance := ((none : Option AccountRlp).getD zeroAccount).balance + 100 })

theorem applyTransfer_correct_witness :
    (([0] : List Nibble) ≠ [1]) ∧
    applyTransfer Trie.empty [0] witnessAccount [1] none 100 1 10
      = .ok witnessTrie ∧
    lookup witnessTrie [0] = some (encodeAccount
      { witnessAccount with
          balance := witnessAccount.balance - (100 + 1 * 10)
          nonce := witnessAccount.nonce + 1 }) ∧
    lookup witnessTrie [1] = some (encodeAccount
      { (none : Option AccountRlp).getD zeroAccount with
          balance := ((none : Option AccountRlp).getD zeroAccount).balance + 100 }) :=
  ⟨by decide, rfl,
    (applyTransfer_correct.1 Trie.empty [0] witnessAccount [1] none 100 1 10
      witnessTrie (by decide) rfl).1,
    (applyTransfer_correct.1 Trie.empty [0] witnessAccount [1] none 100 1 10
      witnessTrie (by decide) rfl).2⟩

/-- C2: a run of the proving pipeline succeeds exactly when the external
prover returns a proof whose claimed post-state root equals the hash of
the independently computed expected post-state trie and the external
verifier then accepts that proof; in particular any verifier failure (or
root mismatch, or prover failure) surfaces as an error and is never
ignored. -/
theorem runTransferProof_correct
    (prover : GenerationInputs → Except TrieError EvmProof)
    (verifier : EvmProof → Except TrieError Unit)
    (inputs : GenerationInputs) (expectedAfter : Trie) :
    runTransferProof prover verifier inputs expectedAfter = .ok () ↔
      ∃ proof, prover inputs = .ok proof ∧
        proof.trie_roots_after.state_root = trieHash expectedAfter ∧
        verifier proof = .ok () := by
  unfold runTransferProof
  cases hp : prover inputs with
  | error e =>
    show (Except.error e : Except TrieError Unit) = Except.ok () ↔ _
    constructor
    · intro h
      exact Except.noConfusion h
    · rintro ⟨proof, hpe, _, _⟩
      exact Except.noConfusion hpe
  | ok proof =>
    show (if proof.trie_roots_after.state_root = trieHash expectedAfter then
        verifier proof
      else Except.error TrieError.VerificationFailed) = Except.ok () ↔ _
    by_cases hr : proof.trie_roots_after.state_root = trieHash expectedAfter
    · rw [if_pos hr]
      constructor
      · intro h
        exact ⟨proof, rfl, hr, h⟩
      · rintro ⟨proof', hpe, _, hve⟩
        injection hpe with he
        subst he
        exact hve
    · rw [if_neg hr]
      constructor
      · intro h
        exact Except.noConfusion h
      · rintro ⟨proof', hpe, hre, _⟩
        injection hpe with he
        subst he
        exact absurd hre hr

theorem runTransferProof_correct_witness :
    runTransferProof (fun _ => .ok ⟨⟨trieHash Trie.empty, 0, 0⟩⟩)
        (fun _ => .ok ()) ⟨[], Trie.empty⟩ Trie.empty = .ok () ↔
      ∃ proof,
        (fun _ : GenerationInputs =>
          (.ok ⟨⟨trieHash Trie.empty, 0, 0⟩⟩ : Except TrieError EvmProof))
          ⟨[], Trie.empty⟩ = .ok proof ∧
        proof.trie_roots_after.state_root = trieHash Trie.empty ∧
        (fun _ : EvmProof => (.ok () : Except TrieError Unit)) proof = .ok () :=
  runTransferProof_correct _ _ _ _

/-- C3: the manual two-leaf branch construction (a single Branch whose
children at the two keys' first nibbles are Leaf nodes carrying the keys
truncated by one nibble) has the same root as general recursive insertion
of the two key/value pairs into an empty trie exactly when the two keys
diverge at the very first nibble; the reference test's sender and receiver
state keys do diverge there, and for them the manually built expected
post-state trie coincides with the recursively inserted one. -/
theorem manual_branch_refines_insert :
    (∀ (h1 : Nibble) (t1 : List Nibble) (v1 : Bytes) (h2 : Nibble)
        (t2 : List Nibble) (v2 : Bytes),
      (h1 :: t1) ≠ (h2 :: t2) →
      (trieHash (manualTwoLeaf h1 t1 v1 h2 t2 v2)
          = trieHash (insert (insert Trie.empty (h1 :: t1) v1) (h2 :: t2) v2)
        ↔ h1 ≠ h2)) ∧
    sender_nibbles.headD 0 ≠ to_nibbles.headD 0 ∧
    expected_state_trie_after
      = insert
          (insert Trie.empty sender_nibbles (encodeAccount sender_account_after))
          to_nibbles (encodeAccount to_account_after) := by
  refine ⟨?_, by decide, ?_⟩
  · intro h1 t1 v1 h2 t2 v2 hkne
    constructor
    · intro hhash hcontra
      subst hcontra
      obtain ⟨q, core, hE⟩ := insert_two_headeq_ext h1 t1 v1 t2 v2 hkne
      rw [hE] at hhash
      exact trieHash_ext_ne_branch q core _ _ hhash.symm
    · intro hh
      exact congrArg trieHash (manualTwoLeaf_eq_insert h1 t1 v1 h2 t2 v2 hh).symm
  · exact (manualTwoLeaf_eq_insert (sender_nibbles.headD 0) sender_nibbles.tail
      (encodeAccount sender_account_after) (to_nibbles.headD 0) to_nibbles.tail
      (encodeAccount to_account_after) (by decide)).symm

theorem manual_branch_refines_insert_witness :
    (((2 : Fin 16) :: [] : List Nibble) ≠ (12 : Fin 16) :: []) ∧
    (trieHash (manualTwoLeaf 2 [] [1] 12 [] [2])
        = trieHash (insert (insert Trie.empty [(2 : Fin 16)] [1])
            [(12 : Fin 16)] [2])
      ↔ (2 : Fin 16) ≠ 12) :=
  ⟨by decide, manual_branch_refines_insert.1 2 [] [1] 12 [] [2] (by decide)⟩

/-- C4: insertion returns a new trie containing the inserted binding while
every other key keeps the value it had in the input trie; the input trie
itself, being a pure value, is left untouched by the call, and the total
operation never exposes partial state. -/
theorem insert_lookup_frame (t : Trie) (k : List Nibble) (v : Bytes)
    (k' : List Nibble) (hc : canon t = true) (hv : v ≠ []) :
    lookup (insert t k v) k = some v ∧
    (k' ≠ k → lookup (insert t k v) k' = lookup t k') := by
  constructor
  · rw [lookup_insert t k v k hc hv, if_pos rfl]
  · intro h
    rw [lookup_insert t k v k' hc hv, if_neg h]

theorem insert_lookup_frame_witness :
    canon Trie.empty = true ∧ ([7] : Bytes) ≠ [] ∧
    (lookup (insert Trie.empty [3] [7]) [3] = some [7] ∧
      (([4] : List Nibble) ≠ [3] →
        lookup (insert Trie.empty [3] [7]) [4] = lookup Trie.empty [4])) :=
  ⟨rfl, by decide, insert_lookup_frame Trie.empty [3] [7] [4] rfl (by decide)⟩

/-- C5: the hash of the canonical empty trie is the fixed well-known
constant, the hash of the canonical empty-node encoding; empty() is total
and hashing the empty trie always returns this same value. -/
theorem hash_empty_constant :
    trieHash Trie.empty = emptyTrieCommitment ∧
    emptyTrieCommitment = H emptyNodeEncoding :=
  ⟨rfl, rfl⟩

/-- C6: inserting two distinct keys in either order into the same
canonical trie yields tries with equal roots (order independence of
non-conflicting insertions). -/
theorem insert_order_independent (t : Trie) (k1 : List Nibble) (v1 : Bytes)
    (k2 : List Nibble) (v2 : Bytes) (hc : canon t = true) (hne : k1 ≠ k2)
    (hv1 : v1 ≠ []) (hv2 : v2 ≠ []) :
    trieHash (insert (insert t k1 v1) k2 v2)
      = trieHash (insert (insert t k2 v2) k1 v1) :=
  congrArg trieHash (insert_insert_comm t k1 v1 k2 v2 hc hne hv1 hv2)

theorem insert_order_independent_witness :
    canon Trie.empty = true ∧ (([0] : List Nibble) ≠ [1]) ∧
    ([5] : Bytes) ≠ [] ∧ ([6] : Bytes) ≠ [] ∧
    trieHash (insert (insert Trie.empty [0] [5]) [1] [6])
      = trieHash (insert (insert Trie.empty [1] [6]) [0] [5]) :=
  ⟨rfl, by decide, by decide, by decide,
    insert_order_independent Trie.empty [0] [5] [1] [6] rfl (by decide)
      (by decide) (by decide)⟩

/-- C7: encode on AccountRecord is deterministic: records with equal
fields (in the order nonce, balance, storageRoot, codeHash) encode to
byte-for-byte identical output. -/
theorem encode_deterministic (a b : AccountRlp) (h1 : a.nonce = b.nonce)
    (h2 : a.balance = b.balance) (h3 : a.storage_root = b.storage_root)
    (h4 : a.code_hash = b.code_hash) : encodeAccount a = encodeAccount b := by
  have hab : a = b := by
    cases a
    cases b
    simp only at h1 h2 h3 h4
    subst h1
    subst h2
    subst h3
    subst h4
    rfl
  rw [hab]

theorem encode_deterministic_witness :
    (AccountRlp.mk 2 3 4 5).nonce = (AccountRlp.mk 2 3 4 5).nonce ∧
    encodeAccount (AccountRlp.mk 2 3 4 5)
      = encodeAccount (AccountRlp.mk 2 3 4 5) :=
  ⟨rfl, encode_deterministic (AccountRlp.mk 2 3 4 5) (AccountRlp.mk 2 3 4 5)
    rfl rfl rfl rfl⟩

/-- C8: get_nibble fails with OutOfRange exactly when the index reaches
the path length and returns the indexed nibble otherwise;
truncate_n_nibbles_front fails with OutOfRange exactly when asked to drop
more nibbles than the length, truncating a path by its own length yields
the zero-length path, and get_nibble on a zero-length path always fails
with OutOfRange; both operations are pure and leave their input
unchanged. -/
theorem nibble_ops_spec (p : List Nibble) (i n : Nat) :
    (get_nibble p i = .error .OutOfRange ↔ p.length ≤ i) ∧
    (i < p.length → get_nibble p i = .ok (p.getD i 0)) ∧
    (truncate_n_nibbles_front p n = .error .OutOfRange ↔ p.length < n) ∧
    truncate_n_nibbles_front p p.length = .ok [] ∧
    get_nibble [] i = .error .OutOfRange := by
  refine ⟨?_, ?_, ?_, ?_, ?_⟩
  · unfold get_nibble
    by_cases h : i < p.length
    · rw [if_pos h]
      constructor
      · intro hq
        exact Except.noConfusion hq
      · intro hq
        exact absurd hq (by omega)
    · rw [if_neg h]
      exact ⟨fun _ => by omega, fun _ => rfl⟩
  · intro h
    unfold get_nibble
    rw [if_pos h]
  · unfold truncate_n_nibbles_front
    by_cases h : n ≤ p.length
    · rw [if_pos h]
      constructor
      · intro hq
        exact Except.noConfusion hq
      · intro hq
        exact absurd hq (by omega)
    · rw [if_neg h]
      exact ⟨fun _ => by omega, fun _ => rfl⟩
  · unfold truncate_n_nibbles_front
    rw [if_pos (le_refl _), List.drop_length]
  · unfold get_nibble
    rw [if_neg (by simp)]

theorem nibble_ops_spec_witness :
    (1 < ([3, 5] : List Nibble).length ∧
      get_nibble ([3, 5] : List Nibble) 1 = .ok 5) ∧
    truncate_n_nibbles_front ([3, 5] : List Nibble) 2 = .ok [] :=
  ⟨⟨by decide, (nibble_ops_spec [3, 5] 1 2).2.1 (by decide)⟩,
    (nibble_ops_spec [3, 5] 1 2).2.2.2.1⟩

/-- C9: applyTransfer fails with InsufficientBalance whenever
value + gasUsed * gasPrice exceeds the sender's pre-state balance, and in
that case no trie is produced. -/
theorem applyTransfer_insufficient (pre : Trie) (sk : List Nibble)
    (sb : AccountRlp) (rk : List Nibble) (rb : Option AccountRlp)
    (value gasUsed gasPrice : Nat)
    (h : sb.balance < value + gasUsed * gasPrice) :
    applyTransfer pre sk sb rk rb value gasUsed gasPrice
      = .error .InsufficientBalance := by
  unfold applyTransfer
  rw [if_pos h]

theorem applyTransfer_insufficient_witness :
    zeroAccount.balance < 100 + 21000 * 10 ∧
    applyTransfer Trie.empty [0] zeroAccount [1] none 100 21000 10
      = .error .InsufficientBalance :=
  ⟨by decide,
    applyTransfer_insufficient Trie.empty [0] zeroAccount [1] none 100 21000 10
      (by decide)⟩

/-- C10 (counterexample): eth_to_wei is not the exact multiplication by
10^18 on every unsigned 256-bit input: at the largest 256-bit value the
U256 multiplication overflows and the call panics (modelled as none)
instead of returning the product. -/
theorem eth_to_wei_overflow_counterexample :
    eth_to_wei (2 ^ 256 - 1) ≠ some ((2 ^ 256 - 1) * 10 ^ 18) := by
  decide

/-- C10 (amended): for every input whose product with 10^18 still fits in
256 bits — in particular the test's 100000 ether — eth_to_wei returns
exactly the input multiplied by 10^18; beyond that bound the U256
multiplication panics rather than wrapping. -/
theorem eth_to_wei_exact :
    (∀ e : Nat, e * 10 ^ 18 < u256Bound → eth_to_wei e = some (e * 10 ^ 18)) ∧
    eth_to_wei 100000 = some (100000 * 10 ^ 18) := by
  constructor
  · intro e h
    unfold eth_to_wei
    rw [if_pos h]
  · decide

theorem eth_to_wei_exact_witness :
    100000 * 10 ^ 18 < u256Bound ∧ eth_to_wei 100000 = some (100000 * 10 ^ 18) :=
  ⟨by decide, eth_to_wei_exact.1 100000 (by decide)⟩

end MPT
